import Mathlib

/-!
Shallow embedding of the grounding-validation and branch-orchestration core
of the repository, together with theorems settling the frozen claims.

Python strings are modelled as `List Char`, Python `int` as `ℤ` (or `ℕ` where
the value is a count), Python `float` scores as `ℚ`.  Functions are translated
from the source files named in the doc comment of each definition.
-/

/-! ## Data model and embedded operations (translated from the source) -/

/-- Python `str` modelled as a list of characters, so that slicing and length
are explicit list operations. -/
abbrev PyStr := List Char

/-- `SpanDetection` from `models/validators/types.py`. -/
structure SpanDetection where
  text : PyStr
  start : ℤ
  «end» : ℤ
  hallucination_score : ℚ
  label : String
  confidence : ℚ
  severity : ℤ
deriving DecidableEq, Repr

/-- `ValidationResult` from `models/validators/types.py` (the opaque `raw`
payload is omitted: no claim mentions it). -/
structure ValidationResult where
  grounded_pct : ℚ
  needs_fact_check : Bool
  blocked : Bool
  spans : List SpanDetection
deriving DecidableEq, Repr

/-- `HallucinationSpan` from `src/halugate/models.py`. -/
structure HallucinationSpan where
  text : PyStr
  start : ℤ
  «end» : ℤ
  confidence : ℚ
  severity : ℤ
deriving DecidableEq, Repr

/-- `HallucinationResult` from `src/halugate/models.py` (`raw_response` kept as
a Lean `String`). -/
structure HallucinationResult where
  fact_check_needed : Bool
  hallucination_detected : Bool
  spans : List HallucinationSpan
  max_severity : ℤ
  nli_contradictions : ℤ
  raw_response : String
deriving DecidableEq, Repr

/-- The interval contributed by one span in `_grounded_percent`
(`models/validators/lettucedetect.py` lines 207-216): `ENTAILMENT` spans are
discarded, a span with `end > start` contributes `(start, end)`, otherwise the
fallback `(0, len(text))` is used when the text is non-empty. -/
def interval_of (span : SpanDetection) : Option (ℤ × ℤ) :=
  if span.label = "ENTAILMENT" then none
  else if span.start < span.«end» then some (span.start, span.«end»)
  else if 0 < (span.text.length : ℤ) then some (0, (span.text.length : ℤ))
  else none

/-- One step of insertion into a list sorted lexicographically, modelling
Python's `intervals.sort()` on `(start, end)` pairs. -/
def insert_pair (a : ℤ × ℤ) : List (ℤ × ℤ) → List (ℤ × ℤ)
  | [] => [a]
  | b :: rest =>
    if a.1 < b.1 ∨ (a.1 = b.1 ∧ a.2 ≤ b.2) then a :: b :: rest
    else b :: insert_pair a rest

/-- Python's `intervals.sort()` (lexicographic order on int pairs), modelled as
an insertion sort; on a total order any stable sort computes this function. -/
def sort_pairs (l : List (ℤ × ℤ)) : List (ℤ × ℤ) :=
  l.foldr insert_pair []

/-- The merge loop of `_grounded_percent` (lines 222-228): `cur` is the current
last merged interval (`merged[-1]` in the source); an incoming interval with
`start <= last_end` extends it, any other interval starts a new one. -/
def merge_go (cur : ℤ × ℤ) : List (ℤ × ℤ) → List (ℤ × ℤ)
  | [] => [cur]
  | iv :: rest =>
    if iv.1 ≤ cur.2 then merge_go (cur.1, max cur.2 iv.2) rest
    else cur :: merge_go iv rest

/-- `merged = [intervals[0]]; for start, end in intervals[1:]: ...` -/
def merge_intervals : List (ℤ × ℤ) → List (ℤ × ℤ)
  | [] => []
  | iv :: rest => merge_go iv rest

/-- `_grounded_percent` from `models/validators/lettucedetect.py`
(lines 204-232). -/
def grounded_percent (summary : PyStr) (spans : List SpanDetection) : ℚ :=
  if summary.length = 0 then 1
  else
    let intervals := spans.filterMap interval_of
    if intervals = [] then 1
    else
      let merged := merge_intervals (sort_pairs intervals)
      let hallucinated_chars : ℤ := (merged.map fun iv => iv.2 - iv.1).sum
      let gp : ℚ := 1 - (hallucinated_chars : ℚ) / (max summary.length 1 : ℚ)
      max 0 (min 1 gp)

/-- `_severity_from_label` (lines 235-240). -/
def severity_from_label (label : String) : ℤ :=
  if label = "CONTRADICTION" then 4
  else if label = "NEUTRAL" then 2
  else 0

/-- `_should_block` from `models/validators/lettucedetect.py` (lines 243-257).
The source's early-return loop is the disjunction over the span list. -/
def should_block (grounded_pct : ℚ) (spans : List SpanDetection)
    (grounded_min span_conf contradiction_conf : ℚ) : Bool :=
  if grounded_pct < grounded_min then true
  else
    spans.any fun span =>
      decide (span.label = "CONTRADICTION" ∧ contradiction_conf ≤ span.confidence)
      || decide (span_conf ≤ span.hallucination_score ∧ span.label ≠ "ENTAILMENT")

/-- The result-assembly tail of `LettuceDetectValidator.validate`
(lines 108-124), as a function of the summary and the coerced, NLI-labelled
spans (the backend calls that produce the spans are the validator's inputs
here). -/
def validate (grounded_min span_conf contradiction_conf : ℚ)
    (summary : PyStr) (spans : List SpanDetection) : ValidationResult :=
  let grounded_pct := grounded_percent summary spans
  { grounded_pct := grounded_pct
    needs_fact_check := decide (0 < spans.length)
    blocked := should_block grounded_pct spans grounded_min span_conf contradiction_conf
    spans := spans }

/-- `LocalHaluGate.compute_groundedness` from `src/halugate/local.py`
(lines 137-142): `1.0 - (hallucinated_chars / len(answer)) if answer else 1.0`,
with no clamping. -/
def compute_groundedness (result : HallucinationResult) (answer : PyStr) : ℚ :=
  if result.spans = [] then 1
  else if answer.length = 0 then 1
  else 1 - ((result.spans.map fun s => (s.text.length : ℚ)).sum) / (answer.length : ℚ)

/-- Python's `int()` truncation on a rational (toward zero). -/
def pyInt (q : ℚ) : ℤ :=
  if q < 0 then ⌈q⌉ else ⌊q⌋

/-- `ContextEstimator.will_exceed_context` (lines 151-172):
`total = current + additional; limit = int(max_context * threshold);
return total > limit`. -/
def will_exceed_context (current_tokens additional_tokens max_context : ℕ)
    (threshold : ℚ) : Bool :=
  let total : ℤ := (current_tokens : ℤ) + (additional_tokens : ℤ)
  let limit : ℤ := pyInt ((max_context : ℚ) * threshold)
  decide (limit < total)

/-- The fixed stricter guidance installed after any blocked attempt
(`models/base.py` lines 51-54). -/
def strict_guidance : String :=
  "Only include claims supported by the provided data. Prefer omission over " ++
  "speculation. If something is not stated, say it is not stated."

/-- The retry loop of `Overseer.summarise_with_validation`
(`models/base.py` lines 59-68).  The summarizer backend is modelled as
`gen i g` (summary produced by the call made on attempt `i` with guidance `g`)
and the validator as `val i s` (result of the validation call made on attempt
`i` for summary `s`); `remaining` counts the attempts still allowed after this
one (`max_retries - attempt`).  The returned triple carries the summary, the
result and the number of attempts performed. -/
def overseer_loop (gen : ℕ → Option String → String)
    (val : ℕ → String → ValidationResult) :
    ℕ → ℕ → Option String → String × ValidationResult × ℕ
  | attempt, remaining, current_guidance =>
    let summary := gen attempt current_guidance
    let result := val attempt summary
    if result.blocked = false then (summary, result, attempt + 1)
    else
      match remaining with
      | 0 => (summary, result, attempt + 1)
      | rem + 1 => overseer_loop gen val (attempt + 1) rem (some strict_guidance)

/-- `Overseer.summarise_with_validation` (`models/base.py` lines 43-72). -/
def summarise_with_validation (gen : ℕ → Option String → String)
    (val : ℕ → String → ValidationResult) (max_retries : ℕ)
    (guidance : Option String) : String × ValidationResult × ℕ :=
  overseer_loop gen val 0 max_retries guidance

/-- The guidance that attempt `i` uses: the caller's guidance on attempt 0,
the fixed strict guidance on every retry. -/
def attempt_guidance (guidance : Option String) : ℕ → Option String
  | 0 => guidance
  | _ + 1 => some strict_guidance

/-- The summary generated on attempt `i`. -/
def attempt_summary (gen : ℕ → Option String → String)
    (guidance : Option String) (i : ℕ) : String :=
  gen i (attempt_guidance guidance i)

/-- The validation result of attempt `i`. -/
def attempt_result (gen : ℕ → Option String → String)
    (val : ℕ → String → ValidationResult) (guidance : Option String)
    (i : ℕ) : ValidationResult :=
  val i (attempt_summary gen guidance i)

/-- A concrete summarizer backend for the witness: always returns `"s"`. -/
def gen0 : ℕ → Option String → String := fun _ _ => "s"

/-- A concrete validator backend for the witness: blocks attempt 0 only. -/
def val0 : ℕ → String → ValidationResult := fun i _ =>
  { grounded_pct := 1, needs_fact_check := false, blocked := decide (i = 0), spans := [] }

/-- The set of character positions covered by a list of half-open intervals;
the mathematical meaning of the source's sort-and-merge loop. -/
def interval_union (l : List (ℤ × ℤ)) : Finset ℤ :=
  l.foldr (fun iv acc => Finset.Ico iv.1 iv.2 ∪ acc) ∅

/-- Lexicographic comparison used by Python's sort on `(start, end)` pairs. -/
def pair_le (a b : ℤ × ℤ) : Prop :=
  a.1 < b.1 ∨ (a.1 = b.1 ∧ a.2 ≤ b.2)

/-- Concrete non-`ENTAILMENT` span covering characters `[0, 4)`. -/
def span_a : SpanDetection :=
  { text := [], start := 0, «end» := 4, hallucination_score := 0,
    label := "NEUTRAL", confidence := 1, severity := 2 }

/-- Concrete non-`ENTAILMENT` span covering characters `[2, 6)`. -/
def span_b : SpanDetection :=
  { text := [], start := 2, «end» := 6, hallucination_score := 0,
    label := "NEUTRAL", confidence := 1, severity := 2 }

/-- `NLIPrediction` from `models/validators/types.py`. -/
structure NLIPrediction where
  label : String
  confidence : ℚ
deriving DecidableEq, Repr

/-- The body of the `for chunk in context_chunks` loop of `_infer_nli`
(`models/validators/lettucedetect.py` lines 133-140): keep the prediction with
strictly highest confidence seen so far. -/
def nli_best_step (text : PyStr) (nli : PyStr → PyStr → NLIPrediction)
    (best : String × ℚ) (chunk : PyStr) : String × ℚ :=
  let prediction := nli chunk text
  if best.2 < prediction.confidence then (prediction.label, prediction.confidence)
  else best

/-- `LettuceDetectValidator._infer_nli` (lines 126-141): fold the per-chunk
NLI calls starting from `("NEUTRAL", 0.0)`.  The NLI backend is modelled as
the function `nli premise hypothesis`. -/
def infer_nli (nli : PyStr → PyStr → NLIPrediction) (text : PyStr)
    (context_chunks : List PyStr) : String × ℚ :=
  context_chunks.foldl (nli_best_step text nli) ("NEUTRAL", 0)

/-- A backend where two different chunks tie at the same confidence with
different labels. -/
def nli_tie : PyStr → PyStr → NLIPrediction := fun premise _ =>
  if premise = ['a'] then { label := "ENTAILMENT", confidence := 1 }
  else { label := "CONTRADICTION", confidence := 1 }

/-- A backend with distinct confidences for the witness. -/
def nli_wit : PyStr → PyStr → NLIPrediction := fun premise _ =>
  if premise = ['a'] then { label := "ENTAILMENT", confidence := 2 }
  else { label := "CONTRADICTION", confidence := 1 }

/-- The inner slicing loop of `_chunk_contexts`
(`models/validators/lettucedetect.py` lines 197-198):
`for start in range(0, len(context), chunk_size): append(context[start:start+chunk_size])`.
The chunk size is `k1 + 1`, keeping its positivity structural. -/
def slice_loop (c : PyStr) (k1 : ℕ) (start : ℕ) : List PyStr :=
  if h : start < c.length then
    ((c.drop start).take (k1 + 1)) :: slice_loop c k1 (start + (k1 + 1))
  else []
termination_by c.length - start
decreasing_by omega

/-- `_chunk_contexts` from `models/validators/lettucedetect.py`
(lines 189-201). -/
def chunk_contexts (contexts : List PyStr) (chunk_size : ℤ) : List PyStr :=
  if chunk_size ≤ 0 then contexts
  else
    let k := chunk_size.toNat
    let chunks := contexts.flatMap fun c =>
      if c.length ≤ k then [c] else slice_loop c (k - 1) 0
    if chunks = [] then [[]] else chunks

/-- Stable insertion step for `sorted(..., key=key, reverse=True)`: an element
placed from the left goes before the first element whose key is not greater,
so equal keys keep their original order. -/
def insert_desc {α β : Type} [LinearOrder β] (key : α → β) (a : α) :
    List α → List α
  | [] => [a]
  | b :: rest =>
    if key b ≤ key a then a :: b :: rest else b :: insert_desc key a rest

/-- Python's stable descending sort by `key` (`sorted(..., key=key,
reverse=True)`), as a stable insertion sort (any stable sort computes the
same list). -/
def sort_desc {α β : Type} [LinearOrder β] (key : α → β) (l : List α) : List α :=
  l.foldr (insert_desc key) []

/-- Stable insertion step for ascending `sorted(..., key=key)`. -/
def insert_asc {α β : Type} [LinearOrder β] (key : α → β) (a : α) :
    List α → List α
  | [] => [a]
  | b :: rest =>
    if key a ≤ key b then a :: b :: rest else b :: insert_asc key a rest

/-- Python's stable ascending sort by `key`. -/
def sort_asc {α β : Type} [LinearOrder β] (key : α → β) (l : List α) : List α :=
  l.foldr (insert_asc key) []

/-- The replacement marker inserted by `remove_hallucinated_spans`. -/
def UNVERIFIED : PyStr := "[UNVERIFIED]".toList

/-- Python slicing `text[:j]` with negative-index semantics. -/
def py_slice_to (l : PyStr) (j : ℤ) : PyStr :=
  if j < 0 then l.take (l.length - j.natAbs) else l.take j.toNat

/-- Python slicing `text[i:]` with negative-index semantics. -/
def py_slice_from (l : PyStr) (i : ℤ) : PyStr :=
  if i < 0 then l.drop (l.length - i.natAbs) else l.drop i.toNat

/-- `remove_hallucinated_spans` from `src/pipeline/validation.py`
(lines 42-55): sort spans by start descending, then replace each span with
`start >= 0` by `[UNVERIFIED]`. -/
def remove_hallucinated_spans (text : PyStr) (spans : List HallucinationSpan) :
    PyStr :=
  if spans = [] then text
  else
    (sort_desc (fun s => s.start) spans).foldl
      (fun result span =>
        if 0 ≤ span.start then
          py_slice_to result span.start ++ UNVERIFIED ++ py_slice_from result span.«end»
        else result)
      text

/-- `validate_summary` from `src/pipeline/validation.py` (lines 7-39), as a
function of the detector's `HallucinationResult` (the context assembly and the
transport to the detector are the call's inputs here):
returns `(validated, groundedness, result)`. -/
def validate_summary (result : HallucinationResult) (summary : PyStr) :
    PyStr × ℚ × HallucinationResult :=
  (remove_hallucinated_spans summary result.spans,
   compute_groundedness result summary,
   result)

/-- A span with `start = 0`, `end = 12`: valid offsets, not skipped. -/
def span_unverified : HallucinationSpan :=
  { text := [], start := 0, «end» := 12, confidence := 1, severity := 2 }

/-- Modelled from the spec: the `PaperDetails` record lives outside `src/`
(only `TYPE_CHECKING` imports appear); the splitter reads `paper_id`,
`fields_of_study` (optional list, `None` behaves as `[]`), `year` and
`citation_count` (optional ints, combined with `or 0` at use sites). -/
structure Paper where
  paper_id : String
  fields_of_study : List String
  year : Option ℤ
  citation_count : Option ℤ
deriving DecidableEq, Repr

/-- Modelled from the spec: the `Branch` entity of §3 lives outside `src/`;
the splitter reads `query` and the insertion-ordered values of the
`accumulated_papers` mapping. -/
structure Branch where
  query : String
  accumulated_papers : List Paper
deriving DecidableEq, Repr

/-- `SplitStrategy` from `src/context/splitter.py` (lines 18-25). -/
inductive SplitStrategy where
  | BY_TOPIC
  | BY_TIME
  | BY_FIELD
  | BY_CITATION_COUNT
  | RANDOM
deriving DecidableEq, Repr

/-- `SplitResult` from `src/context/splitter.py` (lines 28-35). -/
structure SplitResult where
  strategy : SplitStrategy
  groups : List (List String)
  group_queries : List String
  group_labels : List String
deriving DecidableEq, Repr

/-- `(paper.fields_of_study or ["General"])[0]` (line 158). -/
def primary_field (p : Paper) : String :=
  match p.fields_of_study with
  | [] => "General"
  | f :: _ => f

/-- `paper.year or 0` (line 194). -/
def year_of (p : Paper) : ℤ :=
  match p.year with
  | none => 0
  | some y => y

/-- `p.citation_count or 0` (line 252). -/
def citations_of (p : Paper) : ℤ :=
  match p.citation_count with
  | none => 0
  | some c => c

/-- Appending one item to its keyed group, the per-item behaviour of
`defaultdict(list)`: the first occurrence of a key creates a group at the
end, later occurrences extend the existing group in place. -/
def add_to_group {α K : Type} [DecidableEq K] (k : K) (p : α) :
    List (K × List α) → List (K × List α)
  | [] => [(k, [p])]
  | (k', ps) :: rest =>
    if k' = k then (k', ps ++ [p]) :: rest
    else (k', ps) :: add_to_group k p rest

/-- Grouping by key with Python `defaultdict(list)` insertion-order
semantics (`fields[...].append(...)` loops of the splitter). -/
def py_group_by {α K : Type} [DecidableEq K] (key : α → K) (l : List α) :
    List (K × List α) :=
  l.foldl (fun acc p => add_to_group (key p) p acc) []

/-- The keyed id-groups used by `_split_by_field`/`_split_by_time`:
`defaultdict` grouping whose values are the papers' ids. -/
def grouped_ids {K : Type} [DecidableEq K] (key : Paper → K) (papers : List Paper) :
    List (K × List String) :=
  (py_group_by key papers).map fun kv => (kv.1, kv.2.map Paper.paper_id)

/-- `BranchSplitter._split_by_field` (`src/context/splitter.py` lines
148-183): group by primary field, keep the `num_splits` largest groups
(stable descending sort by group size), merge any remainder into a synthetic
`"Other"` group when it is non-empty. -/
def split_by_field (branch : Branch) (papers : List Paper) (num_splits : ℕ) :
    SplitResult :=
  let fields := grouped_ids primary_field papers
  let sorted_fields := sort_desc (fun kv : String × List String => kv.2.length) fields
  let other_papers := ((sorted_fields.drop num_splits).map Prod.snd).flatten
  let top_fields :=
    if num_splits < sorted_fields.length ∧ other_papers ≠ [] then
      sorted_fields.take num_splits ++ [("Other", other_papers)]
    else sorted_fields.take num_splits
  { strategy := SplitStrategy.BY_FIELD
    groups := top_fields.map Prod.snd
    group_queries := top_fields.map fun kv =>
      "\"" ++ branch.query ++ "\" in " ++ kv.1
    group_labels := top_fields.map Prod.fst }

/-- The year-range label of a closed group in `_split_by_time`
(lines 216-219 and 226-232): one year prints alone, several print as
`first-last`, no years print as `"Unknown"`. -/
def time_label (ys : List ℤ) : String :=
  match ys with
  | [] => "Unknown"
  | [y] => toString y
  | y :: rest => toString y ++ "-" ++ toString (rest.getLastD y)

/-- The body of the `for year in years` loop of `_split_by_time`
(lines 210-221): extend the current group, and close it once it reaches
`papers_per_split` papers while fewer than `num_splits - 1` groups exist.
State: `(groups, labels, current_group, current_years)`. -/
def time_step (pps ns : ℕ)
    (st : List (List String) × List String × List String × List ℤ)
    (kv : ℤ × List String) :
    List (List String) × List String × List String × List ℤ :=
  let cur := st.2.2.1 ++ kv.2
  let cur_years := st.2.2.2 ++ [kv.1]
  if pps ≤ cur.length ∧ st.1.length < ns - 1 then
    (st.1 ++ [cur], st.2.1 ++ [time_label cur_years], [], [])
  else (st.1, st.2.1, cur, cur_years)

/-- `BranchSplitter._split_by_time` (lines 185-242). -/
def split_by_time (branch : Branch) (papers : List Paper) (num_splits : ℕ) :
    SplitResult :=
  let by_year := grouped_ids year_of papers
  let ns := if by_year.length < num_splits then max 1 by_year.length else num_splits
  let pps := papers.length / ns
  let sorted_years := sort_asc (fun kv : ℤ × List String => kv.1) by_year
  let st := sorted_years.foldl (time_step pps ns) ([], [], [], [])
  let final :=
    if st.2.2.1 ≠ [] ∨ st.1 = [] then
      (st.1 ++ [st.2.2.1], st.2.1 ++ [time_label st.2.2.2])
    else (st.1, st.2.1)
  { strategy := SplitStrategy.BY_TIME
    groups := final.1
    group_queries := final.2.map fun lab =>
      "\"" ++ branch.query ++ "\" published:" ++ lab
    group_labels := final.2 }

/-- The `for i in range(num_splits)` slicing shared by
`_split_by_citation_count` and `_split_random` (lines 258-264 and 315-320):
contiguous blocks of `papers_per_split` papers, the last absorbing the
remainder. -/
def contiguous_slices {α : Type} (l : List α) (pps num_splits : ℕ) :
    List (List α) :=
  (List.range num_splits).map fun i =>
    if i = num_splits - 1 then l.drop (i * pps)
    else (l.drop (i * pps)).take pps

/-- `min(p.citation_count or 0 for p in group_papers)` (line 268). -/
def group_min_citations (g : List Paper) : ℤ :=
  match g with
  | [] => 0
  | p :: rest => rest.foldl (fun m q => min m (citations_of q)) (citations_of p)

/-- `max(p.citation_count or 0 for p in group_papers)` (line 269). -/
def group_max_citations (g : List Paper) : ℤ :=
  match g with
  | [] => 0
  | p :: rest => rest.foldl (fun m q => max m (citations_of q)) (citations_of p)

/-- `BranchSplitter._split_by_citation_count` (lines 244-297). -/
def split_by_citation_count (branch : Branch) (papers : List Paper)
    (num_splits : ℕ) : SplitResult :=
  let sorted_papers := sort_desc citations_of papers
  let pps := max 1 (sorted_papers.length / num_splits)
  let pieces := contiguous_slices sorted_papers pps num_splits
  let nonempty := pieces.filter fun g => !g.isEmpty
  let labels := nonempty.map fun g =>
    "citations_" ++ toString (group_min_citations g) ++ "-"
      ++ toString (group_max_citations g)
  let descriptive_labels := (List.range labels.length).map fun i =>
    if i = 0 then "High Impact"
    else if i = labels.length - 1 then "Emerging"
    else "Medium Impact " ++ toString i
  let queries := (List.range descriptive_labels.length).map fun i =>
    if i = 0 then "\"" ++ branch.query ++ "\" highly cited"
    else if i = descriptive_labels.length - 1 then "\"" ++ branch.query ++ "\" recent"
    else "\"" ++ branch.query ++ "\""
  { strategy := SplitStrategy.BY_CITATION_COUNT
    groups := nonempty.map fun g => g.map Paper.paper_id
    group_queries := queries
    group_labels := descriptive_labels }

/-- `BranchSplitter._split_random` (lines 299-333): `random.shuffle` is
modelled by the `shuffled` argument (an arbitrary permutation of the papers);
the slicing and the skip-empty-groups loop are as in the citation split, and
labels keep the slice index. -/
def split_random (branch : Branch) (shuffled : List Paper) (num_splits : ℕ) :
    SplitResult :=
  let pps := max 1 (shuffled.length / num_splits)
  let pieces := (List.range num_splits).map fun i =>
    (i, if i = num_splits - 1 then shuffled.drop (i * pps)
        else (shuffled.drop (i * pps)).take pps)
  let nonempty := pieces.filter fun ig => !ig.2.isEmpty
  let groups := nonempty.map fun ig => ig.2.map Paper.paper_id
  let labels := nonempty.map fun ig => "Branch " ++ toString (ig.1 + 1)
  let queries := (List.range groups.length).map fun i =>
    branch.query ++ " (split " ++ toString (i + 1) ++ ")"
  { strategy := SplitStrategy.RANDOM
    groups := groups
    group_queries := queries
    group_labels := labels }

/-- `BranchSplitter.split` (lines 116-146): `num_splits or
self.default_num_splits` resolution and strategy dispatch (the `else` branch
defaults to the field split). -/
def split (branch : Branch) (strategy : SplitStrategy) (num_splits : Option ℕ)
    (default_num_splits : ℕ) (shuffled : List Paper) : SplitResult :=
  let ns := match num_splits with
    | none => default_num_splits
    | some 0 => default_num_splits
    | some n => n
  let papers := branch.accumulated_papers
  match strategy with
  | SplitStrategy.BY_FIELD => split_by_field branch papers ns
  | SplitStrategy.BY_TIME => split_by_time branch papers ns
  | SplitStrategy.BY_CITATION_COUNT => split_by_citation_count branch papers ns
  | SplitStrategy.RANDOM => split_random branch shuffled ns
  | SplitStrategy.BY_TOPIC => split_by_field branch papers ns

/-- A one-paper branch for the witness. -/
def witness_paper : Paper :=
  { paper_id := "p1", fields_of_study := [], year := none, citation_count := none }

/-- Witness branch holding the single paper. -/
def witness_branch : Branch :=
  { query := "q", accumulated_papers := [witness_paper] }

/-- The field groups of a paper list, stably sorted by size descending
(`sorted_fields` of `_split_by_field`). -/
def field_groups_sorted (papers : List Paper) : List (String × List String) :=
  sort_desc (fun kv : String × List String => kv.2.length)
    (grouped_ids primary_field papers)

/-- Scenario C paper tagged CS+NLP. -/
def paper_p1 : Paper :=
  { paper_id := "p1", fields_of_study := ["Computer Science", "NLP"],
    year := some 2023, citation_count := some 100 }

/-- Scenario C paper tagged CS+CV. -/
def paper_p2 : Paper :=
  { paper_id := "p2", fields_of_study := ["Computer Science", "Computer Vision"],
    year := some 2024, citation_count := some 50 }

/-- Scenario C paper tagged NLP. -/
def paper_p3 : Paper :=
  { paper_id := "p3", fields_of_study := ["NLP"],
    year := some 2022, citation_count := some 200 }

/-- Scenario C paper tagged CV. -/
def paper_p4 : Paper :=
  { paper_id := "p4", fields_of_study := ["Computer Vision"],
    year := some 2023, citation_count := some 75 }

/-- The Scenario C branch: 4 papers tagged {CS+NLP, CS+CV, NLP, CV}. -/
def scenario_branch : Branch :=
  { query := "deep learning",
    accumulated_papers := [paper_p1, paper_p2, paper_p3, paper_p4] }

/-! ## Theorems settling the claims -/

/-- Helper: the final clamp of `_grounded_percent` keeps every outcome inside
`[0, 1]`. -/
theorem grounded_percent_mem_unit (summary : PyStr) (spans : List SpanDetection) :
    0 ≤ grounded_percent summary spans ∧ grounded_percent summary spans ≤ 1 := by
  unfold grounded_percent
  split
  · norm_num
  · dsimp only
    split
    · norm_num
    · constructor
      · exact le_max_left 0 _
      · exact max_le (by norm_num) (min_le_left 1 _)

/-- C1: `validate` sets `needs_fact_check` iff the span list is non-empty and
`blocked` iff `grounded_pct < grounded_min`, or some span is a
`CONTRADICTION` with confidence at least `contradiction_conf`, or some
non-`ENTAILMENT` span has hallucination score at least `span_conf`. -/
theorem validate_flags (grounded_min span_conf contradiction_conf : ℚ)
    (summary : PyStr) (spans : List SpanDetection) :
    ((validate grounded_min span_conf contradiction_conf summary spans).needs_fact_check = true
      ↔ spans ≠ []) ∧
    ((validate grounded_min span_conf contradiction_conf summary spans).blocked = true
      ↔ (validate grounded_min span_conf contradiction_conf summary spans).grounded_pct
            < grounded_min
        ∨ ∃ span ∈ spans,
            (span.label = "CONTRADICTION" ∧ contradiction_conf ≤ span.confidence)
            ∨ (span_conf ≤ span.hallucination_score ∧ span.label ≠ "ENTAILMENT")) := by
  constructor
  · simp [validate, List.length_pos]
  · simp only [validate, should_block]
    split
    · simp_all
    · simp only [List.any_eq_true, Bool.or_eq_true, decide_eq_true_eq]
      simp_all

/-- C2 (amended): `_grounded_percent` always lies in `[0, 1]`;
`compute_groundedness` is at most `1` but is only bounded below by `0` when
the spans' total text length does not exceed the answer length. -/
theorem groundedness_bounds (summary : PyStr) (spans : List SpanDetection)
    (result : HallucinationResult) (answer : PyStr) :
    (0 ≤ grounded_percent summary spans ∧ grounded_percent summary spans ≤ 1) ∧
    compute_groundedness result answer ≤ 1 ∧
    ((result.spans.map fun s => (s.text.length : ℚ)).sum ≤ (answer.length : ℚ) →
      0 ≤ compute_groundedness result answer) := by
  refine ⟨grounded_percent_mem_unit summary spans, ?_, ?_⟩
  · unfold compute_groundedness
    split
    · norm_num
    · split
      · norm_num
      · have hsum : 0 ≤ (result.spans.map fun s => (s.text.length : ℚ)).sum := by
          apply List.sum_nonneg
          intro x hx
          simp only [List.mem_map] at hx
          obtain ⟨s, _, rfl⟩ := hx
          positivity
        have hlen : (0 : ℚ) < (answer.length : ℚ) := by
          rename_i h1 h2
          have : answer.length ≠ 0 := h2
          positivity
        have : 0 ≤ (result.spans.map fun s => (s.text.length : ℚ)).sum / (answer.length : ℚ) :=
          div_nonneg hsum hlen.le
        linarith
  · intro hle
    unfold compute_groundedness
    split
    · norm_num
    · split
      · norm_num
      · have hlen : (0 : ℚ) < (answer.length : ℚ) := by
          rename_i h1 h2
          have : answer.length ≠ 0 := h2
          positivity
        have := (div_le_one hlen).mpr hle
        linarith

/-- C2 counterexample: with one detected span whose text (2 chars) is longer
than the answer (1 char), `compute_groundedness` returns `-1`, outside
`[0, 1]`; the claim that groundedness lies in `[0, 1]` for every input fails
for `LocalHaluGate.compute_groundedness`. -/
theorem compute_groundedness_not_unit :
    compute_groundedness
        { fact_check_needed := true
          hallucination_detected := true
          spans := [{ text := ['b', 'b'], start := 0, «end» := 2,
                      confidence := 1, severity := 4 }]
          max_severity := 4
          nli_contradictions := 1
          raw_response := "" } ['a'] = -1 ∧
    ¬ (0 : ℚ) ≤ -1 := by
  constructor
  · norm_num [compute_groundedness]
  · norm_num

/-- Witness for `groundedness_bounds` at a concrete input. -/
theorem groundedness_bounds_witness :
    (0 ≤ grounded_percent ['a'] [] ∧ grounded_percent ['a'] [] ≤ 1) ∧
    compute_groundedness
        { fact_check_needed := true, hallucination_detected := false, spans := [],
          max_severity := 0, nli_contradictions := 0, raw_response := "" } ['a'] ≤ 1 ∧
    (0 : ℚ) ≤ compute_groundedness
        { fact_check_needed := true, hallucination_detected := false, spans := [],
          max_severity := 0, nli_contradictions := 0, raw_response := "" } ['a'] := by
  have h := groundedness_bounds ['a'] []
    { fact_check_needed := true, hallucination_detected := false, spans := [],
      max_severity := 0, nli_contradictions := 0, raw_response := "" } ['a']
  exact ⟨h.1, h.2.1, h.2.2 (by norm_num)⟩

/-- C7: `will_exceed_context` returns `true` exactly when
`current + additional > max_context * threshold` (for a non-negative
threshold; the `int()` truncation of the limit does not change the comparison
against an integer total). -/
theorem will_exceed_context_iff (current_tokens additional_tokens max_context : ℕ)
    (threshold : ℚ) (hθ : 0 ≤ threshold) :
    will_exceed_context current_tokens additional_tokens max_context threshold = true
      ↔ (max_context : ℚ) * threshold
          < (current_tokens : ℚ) + (additional_tokens : ℚ) := by
  have hprod : 0 ≤ (max_context : ℚ) * threshold :=
    mul_nonneg (by positivity) hθ
  have hfloor : pyInt ((max_context : ℚ) * threshold) = ⌊(max_context : ℚ) * threshold⌋ := by
    unfold pyInt
    rw [if_neg (not_lt.mpr hprod)]
  unfold will_exceed_context
  rw [hfloor]
  simp only [decide_eq_true_eq]
  rw [Int.floor_lt]
  push_cast
  constructor <;> intro h <;> linarith

/-- Witness for `will_exceed_context_iff`: Scenario D of the specification,
`will_exceed_context(100000, 30000, 128000, 0.8) = true`. -/
theorem will_exceed_context_witness :
    will_exceed_context 100000 30000 128000 (4 / 5) = true := by
  rw [will_exceed_context_iff 100000 30000 128000 (4 / 5) (by norm_num)]
  norm_num

/-- Loop invariant for `overseer_loop`, by induction on the remaining
attempt budget. -/
theorem overseer_loop_spec (gen : ℕ → Option String → String)
    (val : ℕ → String → ValidationResult) (g0 : Option String) :
    ∀ remaining attempt,
      attempt + 1 ≤ (overseer_loop gen val attempt remaining
          (attempt_guidance g0 attempt)).2.2 ∧
      (overseer_loop gen val attempt remaining (attempt_guidance g0 attempt)).2.2
          ≤ attempt + remaining + 1 ∧
      (overseer_loop gen val attempt remaining (attempt_guidance g0 attempt)).1
          = attempt_summary gen g0
              ((overseer_loop gen val attempt remaining (attempt_guidance g0 attempt)).2.2 - 1) ∧
      (overseer_loop gen val attempt remaining (attempt_guidance g0 attempt)).2.1
          = attempt_result gen val g0
              ((overseer_loop gen val attempt remaining (attempt_guidance g0 attempt)).2.2 - 1) ∧
      (∀ i, attempt ≤ i →
        i + 1 < (overseer_loop gen val attempt remaining (attempt_guidance g0 attempt)).2.2 →
        (attempt_result gen val g0 i).blocked = true) ∧
      ((attempt_result gen val g0
            ((overseer_loop gen val attempt remaining (attempt_guidance g0 attempt)).2.2 - 1)).blocked
          = true →
        (overseer_loop gen val attempt remaining (attempt_guidance g0 attempt)).2.2
          = attempt + remaining + 1) := by
  intro remaining
  induction remaining with
  | zero =>
    intro attempt
    simp only [overseer_loop]
    split
    · dsimp only
      refine ⟨le_refl _, le_refl _, by simp [attempt_summary],
        by simp [attempt_result, attempt_summary], fun i hi hlt => by omega,
        fun _ => by omega⟩
    · dsimp only
      refine ⟨le_refl _, le_refl _, by simp [attempt_summary],
        by simp [attempt_result, attempt_summary], fun i hi hlt => by omega,
        fun _ => by omega⟩
  | succ rem ih =>
    intro attempt
    simp only [overseer_loop]
    split
    · rename_i hbF
      dsimp only
      refine ⟨le_refl _, by omega, by simp [attempt_summary],
        by simp [attempt_result, attempt_summary], fun i hi hlt => by omega, ?_⟩
      intro hbl
      exfalso
      simp only [Nat.add_sub_cancel, attempt_result, attempt_summary] at hbl
      rw [hbF] at hbl
      exact absurd hbl (by decide)
    · rename_i hbT
      simp only [Bool.not_eq_false] at hbT
      have hguid : attempt_guidance g0 (attempt + 1) = some strict_guidance := rfl
      rw [← hguid]
      obtain ⟨h1, h2, h3, h4, h5, h6⟩ := ih (attempt + 1)
      refine ⟨by omega, by omega, h3, h4, ?_, fun hbl => by have := h6 hbl; omega⟩
      intro i hi hlt
      rcases Nat.eq_or_lt_of_le hi with hEq | hlt'
      · subst hEq
        simp only [attempt_result, attempt_summary]
        exact hbT
      · exact h5 i hlt' hlt

/-- C3: `summarise_with_validation` performs between `1` and `max_retries + 1`
generate-and-validate attempts (exactly one summarizer call and one validator
call per attempt, reflected by the per-attempt indexing of the backends),
returns the summary/result pair of its final attempt, in which every earlier
attempt was blocked (so it returns immediately on the first non-blocked
result), and when the returned result is still blocked the loop used all
`max_retries + 1` attempts and returned the last pair anyway. -/
theorem overseer_bounded_retry (gen : ℕ → Option String → String)
    (val : ℕ → String → ValidationResult) (max_retries : ℕ)
    (guidance : Option String) :
    1 ≤ (summarise_with_validation gen val max_retries guidance).2.2 ∧
    (summarise_with_validation gen val max_retries guidance).2.2 ≤ max_retries + 1 ∧
    (summarise_with_validation gen val max_retries guidance).1
      = attempt_summary gen guidance
          ((summarise_with_validation gen val max_retries guidance).2.2 - 1) ∧
    (summarise_with_validation gen val max_retries guidance).2.1
      = attempt_result gen val guidance
          ((summarise_with_validation gen val max_retries guidance).2.2 - 1) ∧
    (∀ i, i + 1 < (summarise_with_validation gen val max_retries guidance).2.2 →
      (attempt_result gen val guidance i).blocked = true) ∧
    ((summarise_with_validation gen val max_retries guidance).2.1.blocked = true →
      (summarise_with_validation gen val max_retries guidance).2.2 = max_retries + 1) := by
  have h := overseer_loop_spec gen val guidance max_retries 0
  have hg : attempt_guidance guidance 0 = guidance := rfl
  rw [hg] at h
  obtain ⟨h1, h2, h3, h4, h5, h6⟩ := h
  simp only [summarise_with_validation]
  refine ⟨h1, by omega, h3, h4, ?_, ?_⟩
  · intro i hlt
    exact h5 i (Nat.zero_le i) hlt
  · intro hbl
    rw [h4] at hbl
    have := h6 hbl
    omega

/-- Witness for `overseer_bounded_retry` at a concrete backend pair with
`max_retries = 2`. -/
theorem overseer_bounded_retry_witness :
    1 ≤ (summarise_with_validation gen0 val0 2 none).2.2 ∧
    (summarise_with_validation gen0 val0 2 none).2.2 ≤ 2 + 1 := by
  have h := overseer_bounded_retry gen0 val0 2 none
  exact ⟨h.1, h.2.1⟩

theorem mem_interval_union {x : ℤ} {l : List (ℤ × ℤ)} :
    x ∈ interval_union l ↔ ∃ iv ∈ l, x ∈ Finset.Ico iv.1 iv.2 := by
  induction l with
  | nil => simp [interval_union]
  | cons iv rest ih =>
    simp [interval_union] at ih ⊢
    rw [ih]

theorem interval_union_append (l₁ l₂ : List (ℤ × ℤ)) :
    interval_union (l₁ ++ l₂) = interval_union l₁ ∪ interval_union l₂ := by
  induction l₁ with
  | nil => simp [interval_union]
  | cons iv rest ih =>
    simp only [interval_union, List.cons_append, List.foldr_cons] at ih ⊢
    rw [ih, Finset.union_assoc]

theorem interval_union_perm {l₁ l₂ : List (ℤ × ℤ)} (p : l₁.Perm l₂) :
    interval_union l₁ = interval_union l₂ := by
  induction p with
  | nil => rfl
  | cons x _ ih => simp only [interval_union, List.foldr_cons] at ih ⊢; rw [ih]
  | swap x y l =>
    simp only [interval_union, List.foldr_cons]
    rw [Finset.union_left_comm]
  | trans _ _ ih₁ ih₂ => exact ih₁.trans ih₂

theorem interval_union_lb {l : List (ℤ × ℤ)} {b : ℤ} (h : ∀ iv ∈ l, b ≤ iv.1) :
    ∀ x ∈ interval_union l, b ≤ x := by
  intro x hx
  rw [mem_interval_union] at hx
  obtain ⟨iv, hiv, hmem⟩ := hx
  rw [Finset.mem_Ico] at hmem
  exact le_trans (h iv hiv) hmem.1

theorem subset_interval_union {iv : ℤ × ℤ} {l : List (ℤ × ℤ)} (h : iv ∈ l) :
    Finset.Ico iv.1 iv.2 ⊆ interval_union l := by
  intro x hx
  rw [mem_interval_union]
  exact ⟨iv, h, hx⟩

/-- Merging two intervals whose left endpoints are ordered and which touch or
overlap yields one contiguous interval. -/
theorem Ico_union_Ico_eq {a b c d : ℤ} (hac : a ≤ c) (hcb : c ≤ b) :
    Finset.Ico a b ∪ Finset.Ico c d = Finset.Ico a (max b d) := by
  ext x
  simp only [Finset.mem_union, Finset.mem_Ico, lt_max_iff]
  omega

theorem insert_pair_perm (a : ℤ × ℤ) (l : List (ℤ × ℤ)) :
    (insert_pair a l).Perm (a :: l) := by
  induction l with
  | nil => exact List.Perm.refl _
  | cons b rest ih =>
    rw [insert_pair]
    split
    · exact List.Perm.refl _
    · exact (List.Perm.cons b ih).trans (List.Perm.swap a b rest)

theorem sort_pairs_perm (l : List (ℤ × ℤ)) : (sort_pairs l).Perm l := by
  induction l with
  | nil => exact List.Perm.refl _
  | cons a rest ih =>
    simp only [sort_pairs, List.foldr_cons]
    exact (insert_pair_perm a _).trans (List.Perm.cons a ih)

theorem pair_le_total (a b : ℤ × ℤ) : ¬ pair_le a b → pair_le b a := by
  unfold pair_le
  omega

theorem pair_le_trans {a b c : ℤ × ℤ} (h₁ : pair_le a b) (h₂ : pair_le b c) :
    pair_le a c := by
  unfold pair_le at h₁ h₂ ⊢
  omega

theorem insert_pair_sorted {a : ℤ × ℤ} {l : List (ℤ × ℤ)}
    (hl : l.Pairwise pair_le) : (insert_pair a l).Pairwise pair_le := by
  induction l with
  | nil => simp [insert_pair]
  | cons b rest ih =>
    rw [insert_pair]
    split
    · rename_i hab
      refine List.Pairwise.cons ?_ hl
      intro x hx
      rw [List.mem_cons] at hx
      rcases hx with rfl | hxrest
      · exact hab
      · exact pair_le_trans hab ((List.pairwise_cons.mp hl).1 x hxrest)
    · rename_i hab
      have hba : pair_le b a := pair_le_total a b hab
      obtain ⟨hb, hrest⟩ := List.pairwise_cons.mp hl
      refine List.Pairwise.cons ?_ (ih hrest)
      intro x hx
      have hx' := (insert_pair_perm a rest).mem_iff.mp hx
      rw [List.mem_cons] at hx'
      rcases hx' with rfl | hxrest
      · exact hba
      · exact hb x hxrest

theorem sort_pairs_sorted (l : List (ℤ × ℤ)) : (sort_pairs l).Pairwise pair_le := by
  induction l with
  | nil => simp [sort_pairs]
  | cons a rest ih =>
    simp only [sort_pairs, List.foldr_cons]
    exact insert_pair_sorted ih

theorem pairwise_fst_of_pair_le {l : List (ℤ × ℤ)} (h : l.Pairwise pair_le) :
    l.Pairwise fun a b => a.1 ≤ b.1 := by
  refine h.imp ?_
  intro a b hab
  unfold pair_le at hab
  omega

/-- Correctness of the source's merge loop: on a start-sorted list of valid
intervals it produces intervals whose total length is exactly the cardinality
of the union of all covered positions (no double counting). -/
theorem merge_go_sum :
    ∀ (l : List (ℤ × ℤ)) (cur : ℤ × ℤ), cur.1 < cur.2 →
      (∀ iv ∈ l, iv.1 < iv.2) →
      l.Pairwise (fun a b => a.1 ≤ b.1) →
      (∀ iv ∈ l, cur.1 ≤ iv.1) →
      ((merge_go cur l).map fun iv => iv.2 - iv.1).sum
        = (((Finset.Ico cur.1 cur.2 ∪ interval_union l).card : ℤ)) := by
  intro l
  induction l with
  | nil =>
    intro cur hcur _ _ _
    simp only [merge_go, List.map_cons, List.map_nil, List.sum_cons, List.sum_nil,
      interval_union, List.foldr_nil, Finset.union_empty, Int.card_Ico]
    rw [Int.toNat_of_nonneg (by omega)]
    omega
  | cons iv rest ih =>
    intro cur hcur hv hs hlb
    rw [merge_go]
    obtain ⟨hhead, hrest⟩ := List.pairwise_cons.mp hs
    have hcur_iv : cur.1 ≤ iv.1 := hlb iv (List.mem_cons_self iv rest)
    have hiv : iv.1 < iv.2 := hv iv (List.mem_cons_self iv rest)
    split
    · rename_i hle
      have hih := ih (cur.1, max cur.2 iv.2)
        (lt_max_of_lt_left hcur)
        (fun x hx => hv x (List.mem_cons_of_mem iv hx))
        hrest
        (fun x hx => le_trans hcur_iv (hhead x hx))
      rw [hih]
      have hS : Finset.Ico cur.1 (max cur.2 iv.2)
          = Finset.Ico cur.1 cur.2 ∪ Finset.Ico iv.1 iv.2 :=
        (Ico_union_Ico_eq hcur_iv hle).symm
      have hU : interval_union (iv :: rest)
          = Finset.Ico iv.1 iv.2 ∪ interval_union rest := rfl
      rw [hU, hS, Finset.union_assoc]
    · rename_i hgt
      push_neg at hgt
      have hih := ih iv hiv
        (fun x hx => hv x (List.mem_cons_of_mem iv hx))
        hrest hhead
      simp only [List.map_cons, List.sum_cons]
      rw [hih]
      have hU : interval_union (iv :: rest)
          = Finset.Ico iv.1 iv.2 ∪ interval_union rest := rfl
      rw [hU]
      have hdisj : Disjoint (Finset.Ico cur.1 cur.2)
          (Finset.Ico iv.1 iv.2 ∪ interval_union rest) := by
        rw [Finset.disjoint_left]
        intro x hx hx'
        rw [Finset.mem_Ico] at hx
        rcases Finset.mem_union.mp hx' with hx' | hx'
        · rw [Finset.mem_Ico] at hx'
          omega
        · have hlbx := interval_union_lb hhead x hx'
          omega
      rw [Finset.card_union_of_disjoint hdisj]
      push_cast
      rw [Int.card_Ico, Int.toNat_of_nonneg (by omega)]

theorem filterMap_interval_valid (spans : List SpanDetection) :
    ∀ iv ∈ spans.filterMap interval_of, iv.1 < iv.2 := by
  intro iv hiv
  rw [List.mem_filterMap] at hiv
  obtain ⟨s, _, hs⟩ := hiv
  unfold interval_of at hs
  split at hs
  · exact absurd hs (by simp)
  · split at hs
    · rename_i hlt
      obtain rfl := Option.some.inj hs
      exact hlt
    · split at hs
      · rename_i hlen
        obtain rfl := Option.some.inj hs
        exact hlen
      · exact absurd hs (by simp)

/-- `_grounded_percent` computes the clamp of one minus the cardinality of the
union of the spans' character intervals over the summary length: the semantic
content of the sort-and-merge loop. -/
theorem grounded_percent_eq_union (summary : PyStr) (spans : List SpanDetection)
    (hne : summary.length ≠ 0) :
    grounded_percent summary spans
      = max 0 (min 1 (1 - ((interval_union (spans.filterMap interval_of)).card : ℚ)
          / (max summary.length 1 : ℚ))) := by
  unfold grounded_percent
  rw [if_neg hne]
  dsimp only
  by_cases hint : spans.filterMap interval_of = []
  · rw [if_pos hint, hint]
    simp [interval_union]
  · rw [if_neg hint]
    have hperm := sort_pairs_perm (spans.filterMap interval_of)
    obtain ⟨s0, srest, hsorted_eq⟩ :
        ∃ s0 srest, sort_pairs (spans.filterMap interval_of) = s0 :: srest := by
      cases hs : sort_pairs (spans.filterMap interval_of) with
      | nil =>
        rw [hs] at hperm
        exact absurd hperm.symm (by simp [List.perm_nil, hint])
      | cons a l => exact ⟨a, l, rfl⟩
    rw [hsorted_eq] at hperm
    have hvalid : ∀ iv ∈ (s0 :: srest), iv.1 < iv.2 := by
      intro iv hiv
      exact filterMap_interval_valid spans iv (hperm.subset hiv)
    have hpair : (s0 :: srest).Pairwise fun a b => a.1 ≤ b.1 := by
      have := pairwise_fst_of_pair_le (sort_pairs_sorted (spans.filterMap interval_of))
      rwa [hsorted_eq] at this
    obtain ⟨hhead, hrest⟩ := List.pairwise_cons.mp hpair
    have hmerge : merge_intervals (sort_pairs (spans.filterMap interval_of))
        = merge_go s0 srest := by
      rw [hsorted_eq]
      rfl
    rw [hmerge, merge_go_sum srest s0 (hvalid s0 (List.mem_cons_self s0 srest))
      (fun x hx => hvalid x (List.mem_cons_of_mem s0 hx)) hrest hhead]
    have hUcons : Finset.Ico s0.1 s0.2 ∪ interval_union srest
        = interval_union (s0 :: srest) := rfl
    rw [hUcons, interval_union_perm hperm]
    push_cast
    rfl

/-- C4: non-`ENTAILMENT` spans contribute the cardinality of the union of
their character intervals, never the sum of their lengths: (1) in general,
`_grounded_percent` equals the clamp of one minus the union cardinality over
`max(len, 1)`; (2) two overlapping valid non-`ENTAILMENT` spans yield the
length of the union of the two intervals; (3) adding a span whose interval is
contained in the interval of an already-counted span leaves the result
unchanged. -/
theorem grounded_percent_union_semantics :
    (∀ (summary : PyStr) (spans : List SpanDetection), summary.length ≠ 0 →
      grounded_percent summary spans
        = max 0 (min 1 (1 - ((interval_union (spans.filterMap interval_of)).card : ℚ)
            / (max summary.length 1 : ℚ)))) ∧
    (∀ (summary : PyStr) (a b : SpanDetection),
      a.label ≠ "ENTAILMENT" → b.label ≠ "ENTAILMENT" →
      0 ≤ a.start → a.start < a.«end» → a.«end» ≤ (summary.length : ℤ) →
      0 ≤ b.start → b.start < b.«end» → b.«end» ≤ (summary.length : ℤ) →
      b.start ≤ a.«end» → a.start ≤ b.«end» →
      grounded_percent summary [a, b]
        = max 0 (min 1 (1 - ((max a.«end» b.«end» - min a.start b.start : ℤ) : ℚ)
            / (max summary.length 1 : ℚ)))) ∧
    (∀ (summary : PyStr) (spans : List SpanDetection) (b c : SpanDetection),
      b ∈ spans → b.label ≠ "ENTAILMENT" → b.start < b.«end» →
      b.start ≤ c.start → c.start < c.«end» → c.«end» ≤ b.«end» →
      grounded_percent summary (spans ++ [c]) = grounded_percent summary spans) := by
  refine ⟨grounded_percent_eq_union, ?_, ?_⟩
  · intro summary a b hla hlb ha0 halt hale hb0 hblt hble hov1 hov2
    have hlen : summary.length ≠ 0 := by
      intro h0
      rw [h0] at hale
      push_cast at hale
      omega
    rw [grounded_percent_eq_union _ _ hlen]
    have hia : interval_of a = some (a.start, a.«end») := by
      unfold interval_of
      rw [if_neg hla, if_pos halt]
    have hib : interval_of b = some (b.start, b.«end») := by
      unfold interval_of
      rw [if_neg hlb, if_pos hblt]
    have hfm : [a, b].filterMap interval_of
        = [(a.start, a.«end»), (b.start, b.«end»)] := by
      simp [List.filterMap, hia, hib]
    rw [hfm]
    have hU : interval_union [(a.start, a.«end»), (b.start, b.«end»)]
        = Finset.Ico (min a.start b.start) (max a.«end» b.«end») := by
      unfold interval_union
      simp only [List.foldr_cons, List.foldr_nil, Finset.union_empty]
      ext x
      simp only [Finset.mem_union, Finset.mem_Ico, lt_max_iff, min_le_iff]
      omega
    rw [hU, Int.card_Ico]
    have hnn : (0 : ℤ) ≤ max a.«end» b.«end» - min a.start b.start := by omega
    rw [show (((max a.«end» b.«end» - min a.start b.start).toNat : ℕ) : ℚ)
        = ((max a.«end» b.«end» - min a.start b.start : ℤ) : ℚ) from by
      rw [← Int.toNat_of_nonneg hnn]
      push_cast
      rw [Int.toNat_of_nonneg hnn]]
  · intro summary spans b c hbmem hlb hblt hbc hclt hcb
    by_cases hlen : summary.length = 0
    · unfold grounded_percent
      rw [if_pos hlen, if_pos hlen]
    · rw [grounded_percent_eq_union _ _ hlen, grounded_percent_eq_union _ _ hlen]
      have hU : interval_union ((spans ++ [c]).filterMap interval_of)
          = interval_union (spans.filterMap interval_of) := by
        rw [List.filterMap_append, interval_union_append]
        refine Finset.union_eq_left.mpr ?_
        cases hic : interval_of c with
        | none =>
          simp [hic, List.filterMap, interval_union]
        | some ivc =>
          have hivc : ivc = (c.start, c.«end») := by
            unfold interval_of at hic
            by_cases hlc : c.label = "ENTAILMENT"
            · rw [if_pos hlc] at hic
              exact absurd hic (by simp)
            · rw [if_neg hlc, if_pos hclt] at hic
              exact (Option.some.inj hic).symm
          subst hivc
          have hfc : [c].filterMap interval_of = [(c.start, c.«end»)] := by
            simp [List.filterMap, hic]
          rw [hfc]
          have h1 : interval_union [(c.start, c.«end»)] = Finset.Ico c.start c.«end» := by
            unfold interval_union
            simp
          rw [h1]
          have hbmem' : ((b.start, b.«end») : ℤ × ℤ) ∈ spans.filterMap interval_of := by
            rw [List.mem_filterMap]
            refine ⟨b, hbmem, ?_⟩
            unfold interval_of
            rw [if_neg hlb, if_pos hblt]
          exact subset_trans (Finset.Ico_subset_Ico hbc hcb)
            (subset_interval_union hbmem')
      rw [hU]

/-- Witness for `grounded_percent_union_semantics`: two overlapping spans
`[0,4)` and `[2,6)` over a 10-character summary remove 6 characters (the
union), not 8 (the sum), so the grounded percentage is `2/5`. -/
theorem grounded_percent_union_witness :
    grounded_percent (List.replicate 10 'x') [span_a, span_b] = 2 / 5 := by
  have h := grounded_percent_union_semantics.2.1 (List.replicate 10 'x') span_a span_b
    (by decide) (by decide) (by decide) (by decide) (by norm_num [span_a])
    (by decide) (by decide) (by norm_num [span_b]) (by decide) (by decide)
  rw [h]
  norm_num [span_a, span_b]

/-- C5 counterexample: permuting the chunk list changes the label returned by
`_infer_nli` when two chunks tie at the maximal confidence with different
labels ("ties keep the earliest" makes the reduction order-sensitive), so the
claimed order-insensitivity of the `(label, confidence)` pair fails. -/
theorem infer_nli_order_dependent :
    (([['a'], ['b']] : List PyStr).Perm [['b'], ['a']]) ∧
    infer_nli nli_tie [] [['a'], ['b']] ≠ infer_nli nli_tie [] [['b'], ['a']] := by
  constructor
  · decide
  · decide

theorem nli_best_step_comm (nli : PyStr → PyStr → NLIPrediction) (text : PyStr)
    (c c' : PyStr)
    (hcoh : (nli c text).confidence = (nli c' text).confidence →
      (nli c text).label = (nli c' text).label)
    (best : String × ℚ) :
    nli_best_step text nli (nli_best_step text nli best c) c'
      = nli_best_step text nli (nli_best_step text nli best c') c := by
  unfold nli_best_step
  dsimp only
  split_ifs <;>
    first
      | rfl
      | (exfalso; linarith)
      | (have hceq : (nli c text).confidence = (nli c' text).confidence :=
          le_antisymm (by linarith) (by linarith)
         rw [hcoh hceq, hceq])

theorem infer_nli_foldl_coherent (nli : PyStr → PyStr → NLIPrediction)
    (text : PyStr) :
    ∀ {l₁ l₂ : List PyStr}, l₁.Perm l₂ →
      (∀ c ∈ l₁, ∀ c' ∈ l₁,
        (nli c text).confidence = (nli c' text).confidence →
        (nli c text).label = (nli c' text).label) →
      ∀ best, l₁.foldl (nli_best_step text nli) best
        = l₂.foldl (nli_best_step text nli) best := by
  intro l₁ l₂ hperm
  induction hperm with
  | nil => intro _ _; rfl
  | cons x p ih =>
    intro hcoh best
    simp only [List.foldl_cons]
    exact ih (fun c hc c' hc' =>
      hcoh c (List.mem_cons_of_mem x hc) c' (List.mem_cons_of_mem x hc')) _
  | swap x y l =>
    intro hcoh best
    simp only [List.foldl_cons]
    congr 1
    exact nli_best_step_comm nli text y x (hcoh y (by simp) x (by simp)) best
  | trans p₁ p₂ ih₁ ih₂ =>
    intro hcoh best
    rw [ih₁ hcoh best]
    exact ih₂ (fun c hc c' hc' =>
      hcoh c (p₁.mem_iff.mpr hc) c' (p₁.mem_iff.mpr hc')) best

theorem infer_nli_snd_eq_foldl_max (nli : PyStr → PyStr → NLIPrediction)
    (text : PyStr) :
    ∀ (chunks : List PyStr) (best : String × ℚ),
      (chunks.foldl (nli_best_step text nli) best).2
        = chunks.foldl (fun m c => max m (nli c text).confidence) best.2 := by
  intro chunks
  induction chunks with
  | nil => intro best; rfl
  | cons c rest ih =>
    intro best
    simp only [List.foldl_cons]
    rw [ih]
    congr 1
    unfold nli_best_step
    dsimp only
    by_cases h : best.2 < (nli c text).confidence
    · rw [if_pos h]
      exact (max_eq_right h.le).symm
    · rw [if_neg h]
      exact (max_eq_left (not_lt.mp h)).symm

theorem foldl_max_perm (g : PyStr → ℚ) :
    ∀ {l₁ l₂ : List PyStr}, l₁.Perm l₂ →
      ∀ (m : ℚ), l₁.foldl (fun m c => max m (g c)) m
        = l₂.foldl (fun m c => max m (g c)) m := by
  intro l₁ l₂ h
  induction h with
  | nil => intro m; rfl
  | cons x p ih => intro m; simp only [List.foldl_cons]; exact ih _
  | swap x y l => intro m; simp only [List.foldl_cons]; rw [sup_right_comm]
  | trans p₁ p₂ ih₁ ih₂ => intro m; rw [ih₁, ih₂]

/-- C5 (amended): permuting the chunk list never changes the confidence
returned by `_infer_nli` (the maximum is a commutative reduction), and the
full `(label, confidence)` pair is permutation-invariant whenever any two
chunks with equal NLI confidence carry the same label (in particular when the
maximal confidence is attained by a single label); with differently-labelled
ties the "keep the earliest" rule makes the label order-dependent. -/
theorem infer_nli_aggregation (nli : PyStr → PyStr → NLIPrediction)
    (text : PyStr) (chunks chunks' : List PyStr) (hperm : chunks.Perm chunks') :
    (infer_nli nli text chunks).2 = (infer_nli nli text chunks').2 ∧
    ((∀ c ∈ chunks, ∀ c' ∈ chunks,
        (nli c text).confidence = (nli c' text).confidence →
        (nli c text).label = (nli c' text).label) →
      infer_nli nli text chunks = infer_nli nli text chunks') := by
  constructor
  · unfold infer_nli
    rw [infer_nli_snd_eq_foldl_max, infer_nli_snd_eq_foldl_max]
    exact foldl_max_perm _ hperm _
  · intro hcoh
    unfold infer_nli
    exact infer_nli_foldl_coherent nli text hperm hcoh _

/-- Witness for `infer_nli_aggregation` at a concrete backend whose
confidences are all distinct. -/
theorem infer_nli_aggregation_witness :
    infer_nli nli_wit [] [['a'], ['b']] = infer_nli nli_wit [] [['b'], ['a']] :=
  (infer_nli_aggregation nli_wit [] [['a'], ['b']] [['b'], ['a']]
    (by decide)).2 (by decide)

theorem slice_loop_ne_nil {c : PyStr} {k1 start : ℕ} :
    slice_loop c k1 start ≠ [] ↔ start < c.length := by
  rw [slice_loop]
  split <;> simp_all

theorem slice_loop_flatten (c : PyStr) (k1 : ℕ) :
    ∀ start, (slice_loop c k1 start).flatten = c.drop start := by
  suffices h : ∀ n start, c.length - start ≤ n →
      (slice_loop c k1 start).flatten = c.drop start by
    intro start
    exact h (c.length - start) start (le_refl _)
  intro n
  induction n with
  | zero =>
    intro start hle
    rw [slice_loop]
    rw [dif_neg (by omega)]
    rw [List.drop_eq_nil_of_le (by omega)]
    rfl
  | succ m ih =>
    intro start hle
    rw [slice_loop]
    by_cases h : start < c.length
    · rw [dif_pos h]
      rw [List.flatten_cons, ih (start + (k1 + 1)) (by omega)]
      rw [← List.drop_drop, List.take_append_drop]
    · rw [dif_neg h]
      rw [List.drop_eq_nil_of_le (by omega)]
      rfl

theorem slice_loop_chunk_bounds (c : PyStr) (k1 : ℕ) :
    ∀ start, ∀ ch ∈ slice_loop c k1 start, ch ≠ [] ∧ ch.length ≤ k1 + 1 := by
  suffices h : ∀ n start, c.length - start ≤ n →
      ∀ ch ∈ slice_loop c k1 start, ch ≠ [] ∧ ch.length ≤ k1 + 1 by
    intro start
    exact h (c.length - start) start (le_refl _)
  intro n
  induction n with
  | zero =>
    intro start hle ch hch
    rw [slice_loop, dif_neg (by omega)] at hch
    exact absurd hch (List.not_mem_nil ch)
  | succ m ih =>
    intro start hle ch hch
    rw [slice_loop] at hch
    by_cases h : start < c.length
    · rw [dif_pos h, List.mem_cons] at hch
      rcases hch with rfl | hch
      · constructor
        · have : ((c.drop start).take (k1 + 1)).length = min (k1 + 1) (c.length - start) := by
            rw [List.length_take, List.length_drop]
          intro hnil
          rw [hnil] at this
          simp only [List.length_nil] at this
          omega
        · rw [List.length_take, List.length_drop]
          omega
      · exact ih (start + (k1 + 1)) (by omega) ch hch
    · rw [dif_neg h] at hch
      exact absurd hch (List.not_mem_nil ch)

theorem slice_loop_dropLast_full (c : PyStr) (k1 : ℕ) :
    ∀ start, ∀ ch ∈ (slice_loop c k1 start).dropLast, ch.length = k1 + 1 := by
  suffices h : ∀ n start, c.length - start ≤ n →
      ∀ ch ∈ (slice_loop c k1 start).dropLast, ch.length = k1 + 1 by
    intro start
    exact h (c.length - start) start (le_refl _)
  intro n
  induction n with
  | zero =>
    intro start hle ch hch
    rw [slice_loop, dif_neg (by omega)] at hch
    exact absurd hch (List.not_mem_nil ch)
  | succ m ih =>
    intro start hle ch hch
    rw [slice_loop] at hch
    by_cases h : start < c.length
    · rw [dif_pos h] at hch
      cases hrest : slice_loop c k1 (start + (k1 + 1)) with
      | nil =>
        rw [hrest, List.dropLast_single] at hch
        exact absurd hch (List.not_mem_nil ch)
      | cons r rr =>
        rw [hrest, List.dropLast_cons₂, List.mem_cons] at hch
        have hlt : start + (k1 + 1) < c.length := by
          have := @slice_loop_ne_nil c k1 (start + (k1 + 1))
          rw [hrest] at this
          exact this.mp (by simp)
        rcases hch with rfl | hch
        · rw [List.length_take, List.length_drop]
          omega
        · have := ih (start + (k1 + 1)) (by omega) ch
          rw [hrest] at this
          exact this hch
    · rw [dif_neg h] at hch
      exact absurd hch (List.not_mem_nil ch)

/-- C6 counterexample: with `chunk_size <= 0` the contexts are returned
unchanged *before* the empty-list guard, so an empty normalized context list
yields an empty chunk list — the claimed "the resulting chunk list is never
empty" fails at `contexts = []`, `chunk_size = 0`. -/
theorem chunk_contexts_empty_counterexample :
    chunk_contexts [] 0 = [] := by
  rfl

/-- C6 (amended): `chunk_size <= 0` returns the contexts unchanged (including
the empty list, in which case the result is empty and the claimed non-empty
guarantee fails); for positive `chunk_size` the result is never empty (an
empty chunk list is replaced by one empty-string chunk), each context longer
than `chunk_size` is split into consecutive non-overlapping slices of length
`chunk_size` whose concatenation is the context, with a final non-empty
remainder of length at most `chunk_size`; a 5000-character context with
`chunk_size = 2000` yields chunks of lengths `[2000, 2000, 1000]`. -/
theorem chunk_contexts_spec (contexts : List PyStr) (chunk_size : ℤ) :
    (chunk_size ≤ 0 → chunk_contexts contexts chunk_size = contexts) ∧
    (0 < chunk_size → chunk_contexts contexts chunk_size ≠ [] ∧
      (contexts = [] → chunk_contexts contexts chunk_size = [[]])) ∧
    (0 < chunk_size → contexts ≠ [] →
      chunk_contexts contexts chunk_size
        = contexts.flatMap fun c =>
            if c.length ≤ chunk_size.toNat then [c]
            else slice_loop c (chunk_size.toNat - 1) 0) ∧
    (0 < chunk_size → ∀ c ∈ contexts, chunk_size.toNat < c.length →
      (slice_loop c (chunk_size.toNat - 1) 0).flatten = c ∧
      (∀ ch ∈ (slice_loop c (chunk_size.toNat - 1) 0).dropLast,
        ch.length = chunk_size.toNat) ∧
      (∀ ch ∈ slice_loop c (chunk_size.toNat - 1) 0,
        ch ≠ [] ∧ ch.length ≤ chunk_size.toNat)) ∧
    ((chunk_contexts [List.replicate 5000 'x'] 2000).map List.length
      = [2000, 2000, 1000]) := by
  refine ⟨?_, ?_, ?_, ?_, ?_⟩
  · intro hle
    unfold chunk_contexts
    rw [if_pos hle]
  · intro hpos
    unfold chunk_contexts
    rw [if_neg (by omega)]
    dsimp only
    constructor
    · split
      · simp
      · rename_i hne
        exact hne
    · intro hnil
      subst hnil
      rfl
  · intro hpos hne
    unfold chunk_contexts
    rw [if_neg (by omega)]
    dsimp only
    cases contexts with
    | nil => exact absurd rfl hne
    | cons c rest =>
      have hfc : (if c.length ≤ chunk_size.toNat then [c]
          else slice_loop c (chunk_size.toNat - 1) 0) ≠ [] := by
        split
        · simp
        · rename_i hgt
          push_neg at hgt
          rw [slice_loop_ne_nil]
          omega
      rw [if_neg ?_]
      simp only [List.flatMap_cons]
      intro hnil
      rw [List.append_eq_nil] at hnil
      exact hfc hnil.1
  · intro hpos c _ hlong
    have hk : 1 ≤ chunk_size.toNat := by omega
    have hk1 : chunk_size.toNat - 1 + 1 = chunk_size.toNat := by omega
    refine ⟨?_, ?_, ?_⟩
    · rw [slice_loop_flatten c (chunk_size.toNat - 1) 0, List.drop_zero]
    · intro ch hch
      rw [slice_loop_dropLast_full c (chunk_size.toNat - 1) 0 ch hch, hk1]
    · intro ch hch
      have := slice_loop_chunk_bounds c (chunk_size.toNat - 1) 0 ch hch
      rw [hk1] at this
      exact this
  · have hlen5000 : (List.replicate 5000 'x').length = 5000 := List.length_replicate 5000 'x'
    have echunks : chunk_contexts [List.replicate 5000 'x'] 2000
        = slice_loop (List.replicate 5000 'x') 1999 0 := by
      unfold chunk_contexts
      rw [if_neg (by norm_num)]
      dsimp only
      simp only [List.flatMap_cons, List.flatMap_nil, List.append_nil]
      have hgt : ¬ ((List.replicate 5000 'x').length ≤ (2000 : ℤ).toNat) := by
        rw [hlen5000]
        decide
      rw [if_neg hgt]
      have hne2 : slice_loop (List.replicate 5000 'x') ((2000 : ℤ).toNat - 1) 0 ≠ [] :=
        slice_loop_ne_nil.mpr (by rw [hlen5000]; decide)
      rw [if_neg hne2]
      rfl
    rw [echunks]
    rw [slice_loop, dif_pos (show 0 < (List.replicate 5000 'x').length by
      rw [hlen5000]; decide)]
    rw [slice_loop, dif_pos (show 0 + (1999 + 1) < (List.replicate 5000 'x').length by
      rw [hlen5000]; decide)]
    rw [slice_loop, dif_pos (show 0 + (1999 + 1) + (1999 + 1)
        < (List.replicate 5000 'x').length by rw [hlen5000]; decide)]
    rw [slice_loop, dif_neg (show ¬ (0 + (1999 + 1) + (1999 + 1) + (1999 + 1)
        < (List.replicate 5000 'x').length) by rw [hlen5000]; decide)]
    simp only [List.map_cons, List.map_nil, List.length_take, List.length_drop, hlen5000]
    decide

theorem insert_desc_perm {α β : Type} [LinearOrder β] (key : α → β) (a : α)
    (l : List α) : (insert_desc key a l).Perm (a :: l) := by
  induction l with
  | nil => exact List.Perm.refl _
  | cons b rest ih =>
    rw [insert_desc]
    split
    · exact List.Perm.refl _
    · exact (List.Perm.cons b ih).trans (List.Perm.swap a b rest)

theorem sort_desc_perm {α β : Type} [LinearOrder β] (key : α → β) (l : List α) :
    (sort_desc key l).Perm l := by
  induction l with
  | nil => exact List.Perm.refl _
  | cons a rest ih =>
    simp only [sort_desc, List.foldr_cons]
    exact (insert_desc_perm key a _).trans (List.Perm.cons a ih)

theorem insert_asc_perm {α β : Type} [LinearOrder β] (key : α → β) (a : α)
    (l : List α) : (insert_asc key a l).Perm (a :: l) := by
  induction l with
  | nil => exact List.Perm.refl _
  | cons b rest ih =>
    rw [insert_asc]
    split
    · exact List.Perm.refl _
    · exact (List.Perm.cons b ih).trans (List.Perm.swap a b rest)

theorem sort_asc_perm {α β : Type} [LinearOrder β] (key : α → β) (l : List α) :
    (sort_asc key l).Perm l := by
  induction l with
  | nil => exact List.Perm.refl _
  | cons a rest ih =>
    simp only [sort_asc, List.foldr_cons]
    exact (insert_asc_perm key a _).trans (List.Perm.cons a ih)

theorem insert_desc_sorted {α β : Type} [LinearOrder β] {key : α → β} {a : α}
    {l : List α} (hl : l.Pairwise fun x y => key y ≤ key x) :
    (insert_desc key a l).Pairwise fun x y => key y ≤ key x := by
  induction l with
  | nil => simp [insert_desc]
  | cons b rest ih =>
    rw [insert_desc]
    obtain ⟨hb, hrest⟩ := List.pairwise_cons.mp hl
    split
    · rename_i hba
      refine List.Pairwise.cons ?_ hl
      intro x hx
      rw [List.mem_cons] at hx
      rcases hx with rfl | hxrest
      · exact hba
      · exact le_trans (hb x hxrest) hba
    · rename_i hba
      have hab : key a ≤ key b := le_of_not_le hba
      refine List.Pairwise.cons ?_ (ih hrest)
      intro x hx
      have hx' := (insert_desc_perm key a rest).mem_iff.mp hx
      rw [List.mem_cons] at hx'
      rcases hx' with rfl | hxrest
      · exact hab
      · exact hb x hxrest

theorem sort_desc_sorted {α β : Type} [LinearOrder β] (key : α → β)
    (l : List α) : (sort_desc key l).Pairwise fun x y => key y ≤ key x := by
  induction l with
  | nil => simp [sort_desc]
  | cons a rest ih =>
    simp only [sort_desc, List.foldr_cons]
    exact insert_desc_sorted ih

/-- C10 counterexample: on the text `"[UNVERIFIED]"` with one detected span
covering the whole text, `validate_summary` returns the candidate summary
verbatim even though a span with `start >= 0` was detected — the claimed
"unchanged iff spans empty or all starts negative" fails in the only-if
direction. -/
theorem validate_summary_verbatim_counterexample :
    (validate_summary
        { fact_check_needed := true, hallucination_detected := true,
          spans := [span_unverified], max_severity := 2, nli_contradictions := 0,
          raw_response := "" } UNVERIFIED).1 = UNVERIFIED ∧
    ¬ ([span_unverified] = ([] : List HallucinationSpan)
        ∨ ∀ s ∈ [span_unverified], s.start < 0) := by
  constructor
  · decide
  · decide

/-- C10 (amended): `remove_hallucinated_spans` returns the text unchanged *if*
the span list is empty or every span has `start < 0` (the converse fails: a
span may rewrite the text to itself); a single span with
`0 <= start <= end <= len(text)` yields
`text[:start] ++ "[UNVERIFIED]" ++ text[end:]`; and in general the spans are
applied sequentially in descending order of `start`. -/
theorem remove_hallucinated_spans_spec :
    (∀ (text : PyStr) (spans : List HallucinationSpan),
      (spans = [] ∨ ∀ s ∈ spans, s.start < 0) →
      remove_hallucinated_spans text spans = text) ∧
    (∀ (text : PyStr) (s : HallucinationSpan),
      0 ≤ s.start → s.start ≤ s.«end» → s.«end» ≤ (text.length : ℤ) →
      remove_hallucinated_spans text [s]
        = text.take s.start.toNat ++ UNVERIFIED ++ text.drop s.«end».toNat) ∧
    (∀ (text : PyStr) (spans : List HallucinationSpan), spans ≠ [] →
      remove_hallucinated_spans text spans
        = (sort_desc (fun s => s.start) spans).foldl
            (fun result span =>
              if 0 ≤ span.start then
                py_slice_to result span.start ++ UNVERIFIED
                  ++ py_slice_from result span.«end»
              else result) text) := by
  refine ⟨?_, ?_, ?_⟩
  · intro text spans h
    unfold remove_hallucinated_spans
    rcases h with rfl | hall
    · rw [if_pos rfl]
    · split
      · rfl
      · have hmem : ∀ s ∈ sort_desc (fun s : HallucinationSpan => s.start) spans,
            s.start < 0 := by
          intro s hs
          exact hall s ((sort_desc_perm _ spans).subset hs)
        generalize sort_desc (fun s : HallucinationSpan => s.start) spans = l at hmem
        induction l with
        | nil => rfl
        | cons s rest ih =>
          simp only [List.foldl_cons]
          rw [if_neg (not_le.mpr (hmem s (List.mem_cons_self s rest)))]
          exact ih fun x hx => hmem x (List.mem_cons_of_mem s hx)
  · intro text s h0 hse hel
    unfold remove_hallucinated_spans
    rw [if_neg (by simp)]
    have hsort : sort_desc (fun s : HallucinationSpan => s.start) [s] = [s] := rfl
    rw [hsort]
    simp only [List.foldl_cons, List.foldl_nil]
    rw [if_pos h0]
    unfold py_slice_to py_slice_from
    rw [if_neg (by omega), if_neg (by omega)]
  · intro text spans hne
    unfold remove_hallucinated_spans
    rw [if_neg hne]

/-- Witness for `remove_hallucinated_spans_spec`: one valid span `[0, 1)` over
`"hi"` replaces the `'h'` with the marker. -/
theorem remove_hallucinated_spans_witness :
    remove_hallucinated_spans ['h', 'i']
        [{ text := [], start := 0, «end» := 1, confidence := 1, severity := 2 }]
      = UNVERIFIED ++ ['i'] := by
  have h := remove_hallucinated_spans_spec.2.1 ['h', 'i']
    { text := [], start := 0, «end» := 1, confidence := 1, severity := 2 }
    (by decide) (by decide) (by decide)
  rw [h]
  rfl

/-- Witness for `chunk_contexts_spec`: a non-positive chunk size leaves the
context list unchanged, and a positive chunk size turns an empty context list
into one empty-string chunk. -/
theorem chunk_contexts_spec_witness :
    chunk_contexts [['a', 'b']] (-1) = [['a', 'b']] ∧ chunk_contexts [] 1 = [[]] := by
  have h1 := (chunk_contexts_spec [['a', 'b']] (-1)).1 (by norm_num)
  have h2 := ((chunk_contexts_spec [] 1).2.1 (by norm_num)).2 rfl
  exact ⟨h1, h2⟩

theorem add_to_group_flatten {α K : Type} [DecidableEq K] (k : K) (p : α)
    (acc : List (K × List α)) :
    (((add_to_group k p acc).map Prod.snd).flatten).Perm
      (p :: (acc.map Prod.snd).flatten) := by
  induction acc with
  | nil => exact List.Perm.refl _
  | cons kv rest ih =>
    obtain ⟨k', ps⟩ := kv
    rw [add_to_group]
    split
    · simp only [List.map_cons, List.flatten_cons]
      rw [List.append_assoc]
      exact (List.Perm.append_left ps (List.Perm.refl _)).trans List.perm_middle
    · simp only [List.map_cons, List.flatten_cons]
      exact (ih.append_left ps).trans List.perm_middle

theorem add_to_group_ne_nil {α K : Type} [DecidableEq K] {k : K} {p : α}
    {acc : List (K × List α)} (h : ∀ kv ∈ acc, kv.2 ≠ []) :
    ∀ kv ∈ add_to_group k p acc, kv.2 ≠ [] := by
  induction acc with
  | nil =>
    intro kv hkv
    rw [add_to_group] at hkv
    rw [List.mem_cons] at hkv
    rcases hkv with rfl | hkv
    · simp
    · exact absurd hkv (List.not_mem_nil kv)
  | cons kv0 rest ih =>
    obtain ⟨k', ps⟩ := kv0
    intro kv hkv
    rw [add_to_group] at hkv
    split at hkv
    · rw [List.mem_cons] at hkv
      rcases hkv with rfl | hkv
      · simp
      · exact h kv (List.mem_cons_of_mem _ hkv)
    · rw [List.mem_cons] at hkv
      rcases hkv with rfl | hkv
      · exact h _ (List.mem_cons_self _ _)
      · exact ih (fun x hx => h x (List.mem_cons_of_mem _ hx)) kv hkv

theorem py_group_by_flatten_perm {α K : Type} [DecidableEq K] (key : α → K)
    (l : List α) :
    (((py_group_by key l).map Prod.snd).flatten).Perm l := by
  suffices h : ∀ (l : List α) (acc : List (K × List α)),
      (((l.foldl (fun acc p => add_to_group (key p) p acc) acc).map
          Prod.snd).flatten).Perm ((acc.map Prod.snd).flatten ++ l) by
    have := h l []
    simpa [py_group_by] using this
  intro l
  induction l with
  | nil =>
    intro acc
    simp
  | cons p rest ih =>
    intro acc
    simp only [List.foldl_cons]
    refine (ih (add_to_group (key p) p acc)).trans ?_
    refine ((add_to_group_flatten (key p) p acc).append_right rest).trans ?_
    exact List.perm_middle.symm

theorem py_group_by_ne_nil {α K : Type} [DecidableEq K] (key : α → K)
    (l : List α) : ∀ kv ∈ py_group_by key l, kv.2 ≠ [] := by
  suffices h : ∀ (l : List α) (acc : List (K × List α)),
      (∀ kv ∈ acc, kv.2 ≠ []) →
      ∀ kv ∈ l.foldl (fun acc p => add_to_group (key p) p acc) acc, kv.2 ≠ [] by
    intro kv hkv
    exact h l [] (by simp) kv hkv
  intro l
  induction l with
  | nil =>
    intro acc hacc
    exact hacc
  | cons p rest ih =>
    intro acc hacc
    simp only [List.foldl_cons]
    exact ih _ (add_to_group_ne_nil hacc)

theorem flatten_perm_of_perm {α : Type} {L₁ L₂ : List (List α)}
    (h : L₁.Perm L₂) : L₁.flatten.Perm L₂.flatten := by
  induction h with
  | nil => exact List.Perm.refl _
  | cons x _ ih => simp only [List.flatten_cons]; exact ih.append_left x
  | swap x y l =>
    simp only [List.flatten_cons]
    rw [← List.append_assoc, ← List.append_assoc]
    exact List.perm_append_comm.append_right _
  | trans _ _ ih₁ ih₂ => exact ih₁.trans ih₂

theorem flatten_filter_ne_nil {α : Type} (L : List (List α)) :
    (L.filter fun g => !g.isEmpty).flatten = L.flatten := by
  induction L with
  | nil => rfl
  | cons g rest ih =>
    by_cases hg : g = []
    · subst hg
      simp [ih]
    · rw [List.filter_cons]
      rw [if_pos (by simp [List.isEmpty_iff, hg])]
      rw [List.flatten_cons, List.flatten_cons, ih]

theorem grouped_ids_flatten_perm {K : Type} [DecidableEq K] (key : Paper → K)
    (papers : List Paper) :
    (((grouped_ids key papers).map Prod.snd).flatten).Perm
      (papers.map Paper.paper_id) := by
  unfold grouped_ids
  rw [List.map_map]
  have hcomp : (Prod.snd ∘ fun kv : K × List Paper => (kv.1, kv.2.map Paper.paper_id))
      = fun kv : K × List Paper => kv.2.map Paper.paper_id := rfl
  rw [hcomp]
  have : (fun kv : K × List Paper => kv.2.map Paper.paper_id)
      = (List.map Paper.paper_id ∘ Prod.snd) := rfl
  rw [this, ← List.map_map, ← List.map_flatten]
  exact (py_group_by_flatten_perm key papers).map Paper.paper_id

theorem grouped_ids_ne_nil {K : Type} [DecidableEq K] (key : Paper → K)
    (papers : List Paper) : ∀ kv ∈ grouped_ids key papers, kv.2 ≠ [] := by
  intro kv hkv
  unfold grouped_ids at hkv
  rw [List.mem_map] at hkv
  obtain ⟨kv0, hkv0, rfl⟩ := hkv
  simp only [ne_eq, List.map_eq_nil_iff]
  exact py_group_by_ne_nil key papers kv0 hkv0

theorem grouped_ids_ne_nil_list {K : Type} [DecidableEq K] (key : Paper → K)
    (papers : List Paper) (hne : papers ≠ []) : grouped_ids key papers ≠ [] := by
  intro hnil
  have hperm := grouped_ids_flatten_perm key papers
  rw [hnil] at hperm
  simp only [List.map_nil, List.flatten_nil] at hperm
  have hmap : papers.map Paper.paper_id = [] := List.perm_nil.mp hperm.symm
  rw [List.map_eq_nil_iff] at hmap
  exact hne hmap

theorem contiguous_slices_take {α : Type} (l : List α) (pps : ℕ) :
    ∀ m, (((List.range m).map fun i => (l.drop (i * pps)).take pps).flatten)
      = l.take (m * pps) := by
  intro m
  induction m with
  | zero => simp
  | succ k ih =>
    rw [List.range_succ, List.map_append, List.flatten_append, ih]
    simp only [List.map_cons, List.map_nil, List.flatten_cons, List.flatten_nil,
      List.append_nil]
    rw [← List.take_add, Nat.succ_mul]

theorem contiguous_slices_flatten {α : Type} (l : List α) (pps ns : ℕ)
    (hns : 1 ≤ ns) : (contiguous_slices l pps ns).flatten = l := by
  obtain ⟨m, rfl⟩ : ∃ m, ns = m + 1 := ⟨ns - 1, by omega⟩
  unfold contiguous_slices
  rw [List.range_succ, List.map_append, List.flatten_append]
  have hmap : ((List.range m).map fun i =>
        if i = m + 1 - 1 then l.drop (i * pps) else (l.drop (i * pps)).take pps)
      = (List.range m).map fun i => (l.drop (i * pps)).take pps := by
    apply List.map_congr_left
    intro i hi
    rw [List.mem_range] at hi
    rw [if_neg (by omega)]
  rw [hmap, contiguous_slices_take]
  simp only [List.map_cons, List.map_nil, List.flatten_cons, List.flatten_nil,
    List.append_nil]
  rw [if_pos (by omega)]
  exact List.take_append_drop _ l

theorem time_fold_spec (pps ns : ℕ) :
    ∀ (pairs : List (ℤ × List String))
      (st : List (List String) × List String × List String × List ℤ),
      (∀ kv ∈ pairs, kv.2 ≠ []) →
      ((pairs.foldl (time_step pps ns) st).1.flatten
          ++ (pairs.foldl (time_step pps ns) st).2.2.1
        = st.1.flatten ++ st.2.2.1 ++ (pairs.map Prod.snd).flatten) ∧
      (st.2.1.length = st.1.length →
        (pairs.foldl (time_step pps ns) st).2.1.length
          = (pairs.foldl (time_step pps ns) st).1.length) ∧
      ((∀ g ∈ st.1, g ≠ []) → ∀ g ∈ (pairs.foldl (time_step pps ns) st).1, g ≠ []) ∧
      ((st.1 ≠ [] ∨ st.2.2.1 ≠ [] ∨ pairs ≠ []) →
        ((pairs.foldl (time_step pps ns) st).1 ≠ []
          ∨ (pairs.foldl (time_step pps ns) st).2.2.1 ≠ [])) := by
  intro pairs
  induction pairs with
  | nil =>
    intro st _
    refine ⟨by simp, fun h => h, fun h => h, ?_⟩
    intro h
    simp only [List.foldl_nil]
    rcases h with h | h | h
    · exact Or.inl h
    · exact Or.inr h
    · exact absurd rfl h
  | cons kv rest ih =>
    intro st hvals
    have hkv2 : kv.2 ≠ [] := hvals kv (List.mem_cons_self _ _)
    have hrest : ∀ x ∈ rest, x.2 ≠ [] := fun x hx => hvals x (List.mem_cons_of_mem _ hx)
    simp only [List.foldl_cons]
    by_cases hcl : pps ≤ (st.2.2.1 ++ kv.2).length ∧ st.1.length < ns - 1
    · have hstep : time_step pps ns st kv
          = (st.1 ++ [st.2.2.1 ++ kv.2],
             st.2.1 ++ [time_label (st.2.2.2 ++ [kv.1])], [], []) := by
        unfold time_step
        rw [if_pos hcl]
      rw [hstep]
      obtain ⟨ih1, ih2, ih3, ih4⟩ := ih
        (st.1 ++ [st.2.2.1 ++ kv.2],
         st.2.1 ++ [time_label (st.2.2.2 ++ [kv.1])], [], []) hrest
      refine ⟨?_, ?_, ?_, ?_⟩
      · rw [ih1]
        simp [List.append_assoc]
      · intro hlen
        exact ih2 (by simp [hlen])
      · intro hgs
        refine ih3 ?_
        intro g hg
        rw [List.mem_append] at hg
        rcases hg with hg | hg
        · exact hgs g hg
        · rw [List.mem_singleton] at hg
          subst hg
          intro hnil
          rw [List.append_eq_nil] at hnil
          exact hkv2 hnil.2
      · intro _
        exact ih4 (Or.inl (by simp))
    · have hstep : time_step pps ns st kv
          = (st.1, st.2.1, st.2.2.1 ++ kv.2, st.2.2.2 ++ [kv.1]) := by
        unfold time_step
        rw [if_neg hcl]
      rw [hstep]
      obtain ⟨ih1, ih2, ih3, ih4⟩ := ih
        (st.1, st.2.1, st.2.2.1 ++ kv.2, st.2.2.2 ++ [kv.1]) hrest
      refine ⟨?_, ?_, ?_, ?_⟩
      · rw [ih1]
        simp [List.append_assoc]
      · exact ih2
      · exact ih3
      · intro _
        refine ih4 (Or.inr (Or.inl ?_))
        intro hnil
        rw [List.append_eq_nil] at hnil
        exact hkv2 hnil.2

theorem split_by_field_spec (branch : Branch) (papers : List Paper) (ns : ℕ) :
    ((split_by_field branch papers ns).groups.flatten).Perm
        (papers.map Paper.paper_id) ∧
    (∀ g ∈ (split_by_field branch papers ns).groups, g ≠ []) ∧
    (split_by_field branch papers ns).group_queries.length
      = (split_by_field branch papers ns).groups.length ∧
    (split_by_field branch papers ns).group_labels.length
      = (split_by_field branch papers ns).groups.length := by
  unfold split_by_field
  dsimp only
  set fields := grouped_ids primary_field papers with hfields
  set sorted := sort_desc (fun kv : String × List String => kv.2.length) fields
    with hsorteddef
  have hsp : sorted.Perm fields := sort_desc_perm _ fields
  have hnonempty : ∀ kv ∈ sorted, kv.2 ≠ [] := fun kv hkv =>
    grouped_ids_ne_nil _ papers kv (hsp.subset hkv)
  have hflat : ((sorted.map Prod.snd).flatten).Perm (papers.map Paper.paper_id) :=
    (flatten_perm_of_perm (hsp.map Prod.snd)).trans
      (grouped_ids_flatten_perm _ papers)
  by_cases hcase : ns < sorted.length ∧ ((sorted.drop ns).map Prod.snd).flatten ≠ []
  · rw [if_pos hcase]
    refine ⟨?_, ?_, by simp, by simp⟩
    · rw [List.map_append, List.flatten_append]
      simp only [List.map_cons, List.map_nil, List.flatten_cons, List.flatten_nil,
        List.append_nil]
      rw [← List.flatten_append, ← List.map_append, List.take_append_drop]
      exact hflat
    · intro g hg
      rw [List.map_append, List.mem_append] at hg
      rcases hg with hg | hg
      · rw [List.mem_map] at hg
        obtain ⟨kv, hkv, rfl⟩ := hg
        exact hnonempty kv (List.take_subset ns sorted hkv)
      · simp only [List.map_cons, List.map_nil, List.mem_singleton] at hg
        subst hg
        exact hcase.2
  · rw [if_neg hcase]
    have htake : sorted.take ns = sorted := by
      by_cases hlen : sorted.length ≤ ns
      · exact List.take_of_length_le hlen
      · exfalso
        push_neg at hlen
        rcases not_and_or.mp hcase with hlen' | hother
        · omega
        · push_neg at hother
          obtain ⟨kv, rest, hdrop⟩ : ∃ kv rest, sorted.drop ns = kv :: rest := by
            cases hd : sorted.drop ns with
            | nil =>
              have := List.drop_eq_nil_iff.mp hd
              omega
            | cons kv rest => exact ⟨kv, rest, rfl⟩
          rw [hdrop] at hother
          simp only [List.map_cons, List.flatten_cons] at hother
          rw [List.append_eq_nil] at hother
          refine hnonempty kv ?_ hother.1
          exact List.drop_subset ns sorted (by rw [hdrop]; exact List.mem_cons_self kv rest)
    rw [htake]
    refine ⟨hflat, ?_, by simp, by simp⟩
    intro g hg
    rw [List.mem_map] at hg
    obtain ⟨kv, hkv, rfl⟩ := hg
    exact hnonempty kv hkv

theorem split_by_time_spec (branch : Branch) (papers : List Paper) (ns : ℕ)
    (hne : papers ≠ []) :
    ((split_by_time branch papers ns).groups.flatten).Perm
        (papers.map Paper.paper_id) ∧
    (∀ g ∈ (split_by_time branch papers ns).groups, g ≠ []) ∧
    (split_by_time branch papers ns).group_queries.length
      = (split_by_time branch papers ns).groups.length ∧
    (split_by_time branch papers ns).group_labels.length
      = (split_by_time branch papers ns).groups.length := by
  unfold split_by_time
  dsimp only
  set by_year := grouped_ids year_of papers with hby
  set ns' := if by_year.length < ns then max 1 by_year.length else ns with hns'
  set pps := papers.length / ns' with hpps
  set sorted_years := sort_asc (fun kv : ℤ × List String => kv.1) by_year with hsy
  have hby_ne : by_year ≠ [] := grouped_ids_ne_nil_list _ papers hne
  have hsp : sorted_years.Perm by_year := sort_asc_perm _ _
  have hsorted_ne : sorted_years ≠ [] := by
    intro h
    rw [h] at hsp
    exact hby_ne (List.perm_nil.mp hsp.symm)
  have hvals : ∀ kv ∈ sorted_years, kv.2 ≠ [] := fun kv hkv =>
    grouped_ids_ne_nil _ papers kv (hsp.subset hkv)
  obtain ⟨h1, h2, h3, h4⟩ := time_fold_spec pps ns' sorted_years ([], [], [], []) hvals
  simp only [List.flatten_nil, List.nil_append] at h1
  have h2' := h2 rfl
  have h3' := h3 (by simp)
  have h4' := h4 (Or.inr (Or.inr hsorted_ne))
  set st := sorted_years.foldl (time_step pps ns') ([], [], [], []) with hst
  have hmapflat : ((sorted_years.map Prod.snd).flatten).Perm
      (papers.map Paper.paper_id) :=
    (flatten_perm_of_perm (hsp.map Prod.snd)).trans
      (grouped_ids_flatten_perm _ papers)
  by_cases hfin : st.2.2.1 ≠ [] ∨ st.1 = []
  · rw [if_pos hfin]
    dsimp only
    refine ⟨?_, ?_, by simp [h2'], by simp [h2']⟩
    · rw [List.flatten_append]
      simp only [List.flatten_cons, List.flatten_nil, List.append_nil]
      rw [h1]
      exact hmapflat
    · intro g hg
      rw [List.mem_append] at hg
      rcases hg with hg | hg
      · exact h3' g hg
      · rw [List.mem_singleton] at hg
        subst hg
        rcases hfin with hc | hg0
        · exact hc
        · rcases h4' with hgne | hcne
          · exact absurd hg0 hgne
          · exact hcne
  · rw [if_neg hfin]
    dsimp only
    push_neg at hfin
    obtain ⟨hcur_nil, hgne⟩ := hfin
    refine ⟨?_, h3', by simp [h2'], by simp [h2']⟩
    have hflat_eq : st.1.flatten = ((sorted_years.map Prod.snd).flatten) := by
      rw [← h1, hcur_nil, List.append_nil]
    rw [hflat_eq]
    exact hmapflat

theorem split_by_citation_count_spec (branch : Branch) (papers : List Paper)
    (ns : ℕ) (hns : 1 ≤ ns) :
    ((split_by_citation_count branch papers ns).groups.flatten).Perm
        (papers.map Paper.paper_id) ∧
    (∀ g ∈ (split_by_citation_count branch papers ns).groups, g ≠ []) ∧
    (split_by_citation_count branch papers ns).group_queries.length
      = (split_by_citation_count branch papers ns).groups.length ∧
    (split_by_citation_count branch papers ns).group_labels.length
      = (split_by_citation_count branch papers ns).groups.length := by
  unfold split_by_citation_count
  dsimp only
  set sorted_papers := sort_desc citations_of papers with hsortp
  set pps := max 1 (sorted_papers.length / ns) with hppsdef
  set pieces := contiguous_slices sorted_papers pps ns with hpieces
  set nonempty := pieces.filter (fun g => !g.isEmpty) with hnonempty
  have hflat : ((nonempty.map fun g => g.map Paper.paper_id).flatten).Perm
      (papers.map Paper.paper_id) := by
    have hmaps : (nonempty.map fun g => g.map Paper.paper_id)
        = nonempty.map (List.map Paper.paper_id) := rfl
    rw [hmaps, ← List.map_flatten]
    rw [hnonempty, flatten_filter_ne_nil, hpieces,
      contiguous_slices_flatten sorted_papers pps ns hns]
    exact (sort_desc_perm citations_of papers).map Paper.paper_id
  refine ⟨hflat, ?_, by simp, by simp⟩
  intro g hg
  rw [List.mem_map] at hg
  obtain ⟨piece, hpiece, rfl⟩ := hg
  rw [hnonempty, List.mem_filter] at hpiece
  have : piece ≠ [] := by
    intro hnil
    rw [hnil] at hpiece
    simp at hpiece
  simp only [ne_eq, List.map_eq_nil_iff]
  exact this

theorem split_random_spec (branch : Branch) (papers shuffled : List Paper)
    (ns : ℕ) (hns : 1 ≤ ns) (hsh : shuffled.Perm papers) :
    ((split_random branch shuffled ns).groups.flatten).Perm
        (papers.map Paper.paper_id) ∧
    (∀ g ∈ (split_random branch shuffled ns).groups, g ≠ []) ∧
    (split_random branch shuffled ns).group_queries.length
      = (split_random branch shuffled ns).groups.length ∧
    (split_random branch shuffled ns).group_labels.length
      = (split_random branch shuffled ns).groups.length := by
  unfold split_random
  dsimp only
  set pps := max 1 (shuffled.length / ns) with hppsdef
  set pieces := (List.range ns).map (fun i =>
    (i, if i = ns - 1 then shuffled.drop (i * pps)
        else (shuffled.drop (i * pps)).take pps)) with hpieces
  set nonempty := pieces.filter (fun ig => !ig.2.isEmpty) with hnonempty
  have hsnd : pieces.map Prod.snd = contiguous_slices shuffled pps ns := by
    rw [hpieces, List.map_map]
    rfl
  have hfsnd : nonempty.map Prod.snd
      = (pieces.map Prod.snd).filter fun g => !g.isEmpty := by
    rw [List.filter_map]
    rfl
  have hgroups : (nonempty.map fun ig => ig.2.map Paper.paper_id)
      = (nonempty.map Prod.snd).map (List.map Paper.paper_id) := by
    rw [List.map_map]
    rfl
  have hflat : ((nonempty.map fun ig => ig.2.map Paper.paper_id).flatten).Perm
      (papers.map Paper.paper_id) := by
    rw [hgroups, ← List.map_flatten, hfsnd, flatten_filter_ne_nil, hsnd,
      contiguous_slices_flatten shuffled pps ns hns]
    exact hsh.map Paper.paper_id
  refine ⟨hflat, ?_, by simp, by simp⟩
  intro g hg
  rw [List.mem_map] at hg
  obtain ⟨ig, hig, rfl⟩ := hg
  rw [hnonempty, List.mem_filter] at hig
  have hne2 : ig.2 ≠ [] := by
    intro hnil
    have := hig.2
    rw [hnil] at this
    simp at this
  simp only [ne_eq, List.map_eq_nil_iff]
  exact hne2

/-- C9: for every branch with at least one accumulated paper, every strategy
(`RANDOM` under every permutation of the papers) and every `num_splits >= 1`,
`BranchSplitter.split` returns groups whose concatenation is a permutation of
the branch's paper ids (each id occurs exactly as often as in the branch, so
with distinct ids each appears in exactly one group), with no empty group and
with `groups`, `group_queries` and `group_labels` of equal length. -/
theorem split_partitions (branch : Branch) (strategy : SplitStrategy) (n : ℕ)
    (default_num_splits : ℕ) (shuffled : List Paper)
    (hne : branch.accumulated_papers ≠ []) (hn : 1 ≤ n)
    (hsh : shuffled.Perm branch.accumulated_papers) :
    ((split branch strategy (some n) default_num_splits shuffled).groups.flatten).Perm
        (branch.accumulated_papers.map Paper.paper_id) ∧
    (∀ pid, ((split branch strategy (some n) default_num_splits
          shuffled).groups.flatten).count pid
        = (branch.accumulated_papers.map Paper.paper_id).count pid) ∧
    (∀ g ∈ (split branch strategy (some n) default_num_splits shuffled).groups,
      g ≠ []) ∧
    (split branch strategy (some n) default_num_splits shuffled).group_queries.length
      = (split branch strategy (some n) default_num_splits shuffled).groups.length ∧
    (split branch strategy (some n) default_num_splits shuffled).group_labels.length
      = (split branch strategy (some n) default_num_splits shuffled).groups.length := by
  obtain ⟨m, rfl⟩ : ∃ m, n = m + 1 := ⟨n - 1, by omega⟩
  cases strategy with
  | BY_FIELD =>
    have heq : split branch SplitStrategy.BY_FIELD (some (m + 1))
        default_num_splits shuffled
        = split_by_field branch branch.accumulated_papers (m + 1) := rfl
    rw [heq]
    obtain ⟨hf, hg, hq, hl⟩ := split_by_field_spec branch branch.accumulated_papers (m + 1)
    exact ⟨hf, fun pid => hf.count_eq pid, hg, hq, hl⟩
  | BY_TOPIC =>
    have heq : split branch SplitStrategy.BY_TOPIC (some (m + 1))
        default_num_splits shuffled
        = split_by_field branch branch.accumulated_papers (m + 1) := rfl
    rw [heq]
    obtain ⟨hf, hg, hq, hl⟩ := split_by_field_spec branch branch.accumulated_papers (m + 1)
    exact ⟨hf, fun pid => hf.count_eq pid, hg, hq, hl⟩
  | BY_TIME =>
    have heq : split branch SplitStrategy.BY_TIME (some (m + 1))
        default_num_splits shuffled
        = split_by_time branch branch.accumulated_papers (m + 1) := rfl
    rw [heq]
    obtain ⟨hf, hg, hq, hl⟩ := split_by_time_spec branch branch.accumulated_papers
      (m + 1) hne
    exact ⟨hf, fun pid => hf.count_eq pid, hg, hq, hl⟩
  | BY_CITATION_COUNT =>
    have heq : split branch SplitStrategy.BY_CITATION_COUNT (some (m + 1))
        default_num_splits shuffled
        = split_by_citation_count branch branch.accumulated_papers (m + 1) := rfl
    rw [heq]
    obtain ⟨hf, hg, hq, hl⟩ := split_by_citation_count_spec branch
      branch.accumulated_papers (m + 1) (by omega)
    exact ⟨hf, fun pid => hf.count_eq pid, hg, hq, hl⟩
  | RANDOM =>
    have heq : split branch SplitStrategy.RANDOM (some (m + 1))
        default_num_splits shuffled
        = split_random branch shuffled (m + 1) := rfl
    rw [heq]
    obtain ⟨hf, hg, hq, hl⟩ := split_random_spec branch branch.accumulated_papers
      shuffled (m + 1) (by omega) hsh
    exact ⟨hf, fun pid => hf.count_eq pid, hg, hq, hl⟩

/-- Witness for `split_partitions` at a concrete one-paper branch. -/
theorem split_partitions_witness :
    ((split witness_branch SplitStrategy.BY_FIELD (some 1) 2
        [witness_paper]).groups.flatten).Perm ["p1"] ∧
    (∀ g ∈ (split witness_branch SplitStrategy.BY_FIELD (some 1) 2
        [witness_paper]).groups, g ≠ []) := by
  have h := split_partitions witness_branch SplitStrategy.BY_FIELD 1 2
    [witness_paper] (by decide) (by decide) (List.Perm.refl _)
  exact ⟨h.1, h.2.2.1⟩

/-- C8 counterexample: Scenario C's BY_FIELD split with `num_splits = 2`
produces 3 non-empty groups (the two largest primary-field groups plus the
synthetic "Other" group), not exactly 2 as claimed. -/
theorem split_by_field_scenario_counterexample :
    (split scenario_branch SplitStrategy.BY_FIELD (some 2) 2 []).groups.length = 3 ∧
    ¬ (split scenario_branch SplitStrategy.BY_FIELD (some 2) 2 []).groups.length
        = 2 := by
  constructor
  · decide
  · decide

theorem field_other_ne_nil (papers : List Paper) (ns : ℕ)
    (h : ns < (field_groups_sorted papers).length) :
    (((field_groups_sorted papers).drop ns).map Prod.snd).flatten ≠ [] := by
  have hnonempty : ∀ kv ∈ field_groups_sorted papers, kv.2 ≠ [] := fun kv hkv =>
    grouped_ids_ne_nil _ papers kv ((sort_desc_perm _ _).subset hkv)
  obtain ⟨kv, rest, hdrop⟩ :
      ∃ kv rest, (field_groups_sorted papers).drop ns = kv :: rest := by
    cases hd : (field_groups_sorted papers).drop ns with
    | nil =>
      have := List.drop_eq_nil_iff.mp hd
      omega
    | cons kv rest => exact ⟨kv, rest, rfl⟩
  rw [hdrop]
  simp only [List.map_cons, List.flatten_cons]
  intro hnil
  rw [List.append_eq_nil] at hnil
  refine hnonempty kv ?_ hnil.1
  exact List.drop_subset ns _ (by rw [hdrop]; exact List.mem_cons_self kv rest)

/-- C8 (amended): BY_FIELD groups the papers by primary field, sorts the
groups by size descending (so it keeps the `N` largest), returns all groups
when there are at most `N`, and otherwise the `N` largest plus one synthetic
`"Other"` group holding all remaining papers; on Scenario C's 4 papers with
`num_splits = 2` this yields exactly 3 non-empty groups labelled
`Computer Science`, `NLP` and `Other`. -/
theorem split_by_field_largest_groups :
    (∀ (branch : Branch) (ns : ℕ),
      ((field_groups_sorted branch.accumulated_papers).Pairwise
        fun x y => y.2.length ≤ x.2.length) ∧
      ((field_groups_sorted branch.accumulated_papers).length ≤ ns →
        (split_by_field branch branch.accumulated_papers ns).groups
            = (field_groups_sorted branch.accumulated_papers).map Prod.snd ∧
        (split_by_field branch branch.accumulated_papers ns).group_labels
            = (field_groups_sorted branch.accumulated_papers).map Prod.fst) ∧
      (ns < (field_groups_sorted branch.accumulated_papers).length →
        (split_by_field branch branch.accumulated_papers ns).groups
            = ((field_groups_sorted branch.accumulated_papers).take ns).map Prod.snd
              ++ [(((field_groups_sorted branch.accumulated_papers).drop ns).map
                    Prod.snd).flatten] ∧
        (split_by_field branch branch.accumulated_papers ns).group_labels
            = ((field_groups_sorted branch.accumulated_papers).take ns).map Prod.fst
              ++ ["Other"])) ∧
    ((split scenario_branch SplitStrategy.BY_FIELD (some 2) 2 []).groups
        = [["p1", "p2"], ["p3"], ["p4"]] ∧
      (split scenario_branch SplitStrategy.BY_FIELD (some 2) 2 []).group_labels
        = ["Computer Science", "NLP", "Other"]) := by
  constructor
  · intro branch ns
    have hd : field_groups_sorted branch.accumulated_papers
        = sort_desc (fun kv : String × List String => kv.2.length)
            (grouped_ids primary_field branch.accumulated_papers) := rfl
    refine ⟨sort_desc_sorted _ _, ?_, ?_⟩
    · intro hle
      unfold split_by_field
      dsimp only
      rw [← hd]
      rw [if_neg (fun hc => absurd hc.1 (by omega))]
      rw [List.take_of_length_le hle]
      exact ⟨rfl, rfl⟩
    · intro hlt
      unfold split_by_field
      dsimp only
      rw [← hd]
      rw [if_pos ⟨hlt, field_other_ne_nil branch.accumulated_papers ns hlt⟩]
      constructor
      · simp
      · simp
  · constructor
    · decide
    · decide

/-- Witness for `split_by_field_largest_groups`: on Scenario C with
`num_splits = 2` the groups are the two largest field groups plus the merged
remainder. -/
theorem split_by_field_largest_groups_witness :
    (split_by_field scenario_branch scenario_branch.accumulated_papers 2).groups
      = ((field_groups_sorted scenario_branch.accumulated_papers).take 2).map
          Prod.snd
        ++ [(((field_groups_sorted scenario_branch.accumulated_papers).drop 2).map
              Prod.snd).flatten] :=
  ((split_by_field_largest_groups.1 scenario_branch 2).2.2 (by decide)).1
